import Mathlib

/-!
Verification development for the Enterprise AI Gateway (EAIGtwy).

Shallow embedding of the request-pipeline components that the checked
properties concern: the cost estimator and budget store
(budget_manager.py), the Gemini adapter's token synthesis (adapters.py),
the per-provider circuit breaker and the routing loop (router.py), and
the regex-fallback PII redactor (pii_redactor.py).

Modelling conventions:
* Python floats are modelled as exact rationals (`ℚ`); `round(x, 6)`
  is modelled as round-half-even at six decimal places.
* Python dicts keyed by strings are modelled as association lists with
  insert-or-replace update; only lookup behaviour matters.
* Wall-clock instants are modelled as minutes since an epoch together
  with the process time-zone offset, so that `date.today()` (the local
  calendar date) and the UTC date are both expressible.
-/

namespace EAIGtwy

/-- The `Provider` enum of models.py. -/
inductive Provider where
  | anthropic
  | openai
  | azure_openai
  | gemini
deriving DecidableEq, Repr

/-- The `.value` string of a `Provider` enum member. -/
def Provider.value : Provider → String
  | .anthropic => "anthropic"
  | .openai => "openai"
  | .azure_openai => "azure_openai"
  | .gemini => "gemini"

/-- One row of the pricing table: USD per 1K input / output tokens. -/
structure Rates where
  input : ℚ
  output : ℚ
deriving DecidableEq, Repr

/-- `COST_PER_1K_TOKENS` from budget_manager.py, verbatim. -/
def COST_PER_1K_TOKENS : List (String × List (String × Rates)) :=
  [ ("anthropic",
      [ ("claude-opus-4-6", ⟨0.015, 0.075⟩),
        ("claude-sonnet-4-6", ⟨0.003, 0.015⟩),
        ("claude-haiku-4-5", ⟨0.00025, 0.00125⟩),
        ("default", ⟨0.003, 0.015⟩) ]),
    ("openai",
      [ ("gpt-4o", ⟨0.005, 0.015⟩),
        ("gpt-4o-mini", ⟨0.00015, 0.0006⟩),
        ("gpt-4-turbo", ⟨0.010, 0.030⟩),
        ("default", ⟨0.005, 0.015⟩) ]),
    ("azure_openai",
      [ ("gpt-4o", ⟨0.005, 0.015⟩),
        ("default", ⟨0.005, 0.015⟩) ]),
    ("gemini",
      [ ("gemini-1.5-pro", ⟨0.00125, 0.005⟩),
        ("gemini-1.5-flash", ⟨0.000075, 0.0003⟩),
        ("default", ⟨0.00125, 0.005⟩) ]) ]

/-- The hard-coded last-resort rates in `estimate_cost`
(`{"input": 0.005, "output": 0.015}`). -/
def hardcodedDefaultRates : Rates := ⟨0.005, 0.015⟩

/-- `estimate_cost` from budget_manager.py:
`provider_costs = COST_PER_1K_TOKENS.get(provider, {})`;
`model_costs = provider_costs.get(model, provider_costs.get("default", {...}))`;
`prompt_tokens / 1000 * input + completion_tokens / 1000 * output`. -/
def estimate_cost (provider model : String)
    (prompt_tokens completion_tokens : ℕ) : ℚ :=
  let provider_costs := (COST_PER_1K_TOKENS.lookup provider).getD []
  let model_costs :=
    (provider_costs.lookup model).getD
      ((provider_costs.lookup "default").getD hardcodedDefaultRates)
  (prompt_tokens : ℚ) / 1000 * model_costs.input
    + (completion_tokens : ℚ) / 1000 * model_costs.output

/-- The rate pair selected by the spec's description of the lookup: a
two-level `provider → model` lookup, a per-provider "default" fallback
row, and a system default for providers absent from the table. -/
def specLookupRates (systemDefault : Rates) (provider model : String) : Rates :=
  match COST_PER_1K_TOKENS.lookup provider with
  | some row =>
      match row.lookup model with
      | some r => r
      | none => (row.lookup "default").getD systemDefault
  | none => systemDefault

/-- The most expensive flagship tier appearing in the table: the
anthropic claude-opus-4-6 row. -/
def mostExpensiveFlagship : Rates := ⟨0.015, 0.075⟩

/-- Every rate pair in the table is dominated by `mostExpensiveFlagship`:
it really is the most expensive tier. -/
theorem mostExpensiveFlagship_dominates :
    ∀ row ∈ COST_PER_1K_TOKENS, ∀ r ∈ row.2,
      r.2.input ≤ mostExpensiveFlagship.input ∧
      r.2.output ≤ mostExpensiveFlagship.output := by
  norm_num [COST_PER_1K_TOKENS, mostExpensiveFlagship]
  refine ⟨?_, ?_, ?_, ?_⟩
  · rintro a b (⟨rfl, rfl⟩ | ⟨rfl, rfl⟩ | ⟨rfl, rfl⟩ | ⟨rfl, rfl⟩) <;> norm_num
  · rintro a b (⟨rfl, rfl⟩ | ⟨rfl, rfl⟩ | ⟨rfl, rfl⟩ | ⟨rfl, rfl⟩) <;> norm_num
  · rintro a b (⟨rfl, rfl⟩ | ⟨rfl, rfl⟩) <;> norm_num
  · rintro a b (⟨rfl, rfl⟩ | ⟨rfl, rfl⟩ | ⟨rfl, rfl⟩) <;> norm_num

/-- C7 (counterexample): the claim says that for a provider absent from
the table the rates fall back to a system default equivalent to the most
expensive flagship tier. In fact `"mistral"` is absent from the table and
`estimate_cost` charges it 1000+1000 tokens at 0.02 USD, while the most
expensive flagship tier (claude-opus-4-6) would charge 0.09 USD. -/
theorem c7_system_default_not_flagship :
    COST_PER_1K_TOKENS.lookup "mistral" = none ∧
    estimate_cost "mistral" "some-model" 1000 1000 = 1 / 50 ∧
    (1000 : ℚ) / 1000 * mostExpensiveFlagship.input
      + (1000 : ℚ) / 1000 * mostExpensiveFlagship.output = 9 / 100 ∧
    (1 / 50 : ℚ) ≠ 9 / 100 := by
  refine ⟨by simp [COST_PER_1K_TOKENS], ?_, by norm_num [mostExpensiveFlagship], by norm_num⟩
  norm_num [estimate_cost, COST_PER_1K_TOKENS, hardcodedDefaultRates, List.lookup]

/-- C7 (amended): `estimate_cost(provider, model, pt, ct)` equals
`pt/1000 × input_rate + ct/1000 × output_rate`, where the rates come from
the two-level provider → model lookup with the per-provider "default"
fallback row; for a provider absent from the table the rates fall back to
the system default `{input 0.005, output 0.015}` (the gpt-4o tier), which
is not the most expensive flagship tier. -/
theorem c7_estimate_cost_formula (provider model : String) (pt ct : ℕ) :
    estimate_cost provider model pt ct =
      (pt : ℚ) / 1000 * (specLookupRates hardcodedDefaultRates provider model).input
        + (ct : ℚ) / 1000 * (specLookupRates hardcodedDefaultRates provider model).output := by
  unfold estimate_cost specLookupRates
  cases h1 : COST_PER_1K_TOKENS.lookup provider with
  | none => simp
  | some row =>
      cases h2 : row.lookup model with
      | none => simp [h2]
      | some r => simp [h2]

/-! ## Rounding, clock and calendar -/

/-- Round a rational to the nearest integer, ties to even — the rounding
used by Python's builtin `round`. -/
def roundHalfEven (q : ℚ) : ℤ :=
  let f := ⌊q⌋
  let r := q - f
  if r < 1 / 2 then f
  else if 1 / 2 < r then f + 1
  else if f % 2 = 0 then f else f + 1

/-- `round(x, 6)` from Python, on the exact-rational model of floats. -/
def round6 (q : ℚ) : ℚ := (roundHalfEven (q * 1000000) : ℚ) / 1000000

theorem roundHalfEven_nonneg {q : ℚ} (h : 0 ≤ q) : 0 ≤ roundHalfEven q := by
  have hf : (0 : ℤ) ≤ ⌊q⌋ := Int.le_floor.mpr (by exact_mod_cast h)
  unfold roundHalfEven
  dsimp only
  split
  · exact hf
  · split
    · omega
    · split
      · exact hf
      · omega

theorem round6_nonneg {q : ℚ} (h : 0 ≤ q) : 0 ≤ round6 q := by
  unfold round6
  have h1 : (0 : ℤ) ≤ roundHalfEven (q * 1000000) :=
    roundHalfEven_nonneg (by positivity)
  positivity

/-- A wall-clock instant: minutes since the epoch (UTC), together with
the process's time-zone offset from UTC in minutes.  `datetime.utcnow()`
depends only on `utcMinutes`; `date.today()` (the local calendar date)
depends on both. -/
structure Clock where
  utcMinutes : ℤ
  tzOffsetMinutes : ℤ
deriving DecidableEq, Repr

/-- The local calendar date at this instant as a day number since the
epoch: what Python's `date.today()` returns (it uses local time). -/
def Clock.localDay (c : Clock) : ℤ := (c.utcMinutes + c.tzOffsetMinutes).fdiv 1440

/-- The UTC calendar date at this instant as a day number since the
epoch: what the spec's rollover rule asks for. -/
def Clock.utcDay (c : Clock) : ℤ := c.utcMinutes.fdiv 1440

/-- Civil calendar date (year, month, day) of a day number counted from
1970-01-01, proleptic Gregorian. -/
def civilFromDays (z0 : ℤ) : ℤ × ℤ × ℤ :=
  let z := z0 + 719468
  let era := z.fdiv 146097
  let doe := z - era * 146097
  let yoe := (doe - doe.fdiv 1460 + doe.fdiv 36524 - doe.fdiv 146096).fdiv 365
  let y := yoe + era * 400
  let doy := doe - (365 * yoe + yoe.fdiv 4 - yoe.fdiv 100)
  let mp := (5 * doy + 2).fdiv 153
  let d := doy - (153 * mp + 2).fdiv 5 + 1
  let m := mp + (if mp < 10 then 3 else -9)
  (y + (if m ≤ 2 then 1 else 0), m, d)

/-- The `YYYY-MM` bucket of a day number, encoded injectively as
`year * 12 + (month - 1)`. -/
def monthIndex (day : ℤ) : ℤ :=
  let c := civilFromDays day
  c.1 * 12 + (c.2.1 - 1)

/-- The month key used by `get_budget` / `record_usage`
(`date.today().strftime("%Y-%m")`): the month of the *local* date. -/
def Clock.localMonth (c : Clock) : ℤ := monthIndex c.localDay

/-- The month of the UTC date (what the spec's rollover rule asks for). -/
def Clock.utcMonth (c : Clock) : ℤ := monthIndex c.utcDay

/-! ## In-memory budget store -/

/-- Keys of the per-team daily-usage dict, which holds both the cost
bucket `"<iso-date>"` and the request counter `"<iso-date>_count"`.
The ISO date string is injective in the date, so the date is kept as a
day number. -/
inductive DayKey where
  | cost (day : ℤ)
  | count (day : ℤ)
deriving DecidableEq, Repr

/-- Insert-or-replace on an association list: Python dict assignment as
far as lookups are concerned. -/
def upsert {α β : Type} [BEq α] (k : α) (v : β) : List (α × β) → List (α × β)
  | [] => [(k, v)]
  | (a, b) :: t => if a == k then (k, v) :: t else (a, b) :: upsert k v t

/-- State of `InMemoryBudgetStore`: `_budgets` maps a team to its
configured (daily, monthly) limits; `_daily_usage` and `_monthly_usage`
are the lazily-populated usage buckets. -/
structure BudgetState where
  budgets : List (String × (ℚ × ℚ))
  dailyUsage : List (String × List (DayKey × ℚ))
  monthlyUsage : List (String × List (ℤ × ℚ))
deriving Repr

/-- The store's initial state (all dicts empty). -/
def initBudgetState : BudgetState := ⟨[], [], []⟩

/-- `settings.default_team_daily_budget_usd`. -/
def default_team_daily_budget_usd : ℚ := 10

/-- `settings.default_team_monthly_budget_usd`. -/
def default_team_monthly_budget_usd : ℚ := 200

/-- The budget view returned by `get_budget` (the `TeamBudget` model). -/
structure TeamBudget where
  team_id : String
  daily_limit_usd : ℚ
  monthly_limit_usd : ℚ
  daily_used_usd : ℚ
  monthly_used_usd : ℚ
  daily_remaining_usd : ℚ
  monthly_remaining_usd : ℚ
  request_count_today : ℤ
deriving Repr

/-- `InMemoryBudgetStore.get_budget`, with the wall clock passed
explicitly (the source reads `date.today()`). -/
def get_budget (c : Clock) (s : BudgetState) (team_id : String) : TeamBudget :=
  let today := c.localDay
  let month := c.localMonth
  let cfg := (s.budgets.lookup team_id).getD
    (default_team_daily_budget_usd, default_team_monthly_budget_usd)
  let du := (s.dailyUsage.lookup team_id).getD []
  let daily_used := (du.lookup (DayKey.cost today)).getD 0
  let monthly_used :=
    (((s.monthlyUsage.lookup team_id).getD []).lookup month).getD 0
  let daily_requests := ⌊(du.lookup (DayKey.count today)).getD 0⌋
  { team_id := team_id
    daily_limit_usd := cfg.1
    monthly_limit_usd := cfg.2
    daily_used_usd := round6 daily_used
    monthly_used_usd := round6 monthly_used
    daily_remaining_usd := round6 (max 0 (cfg.1 - daily_used))
    monthly_remaining_usd := round6 (max 0 (cfg.2 - monthly_used))
    request_count_today := daily_requests }

/-- The denial reason returned by `check_budget`, as a tagged value
carrying exactly the data the source interpolates into its f-string
(`""` for the allowed case). -/
inductive BudgetReason where
  | empty
  | dailyExceeded (team_id : String) (used limit : ℚ)
  | monthlyExceeded (team_id : String) (used limit : ℚ)
deriving DecidableEq, Repr

/-- `InMemoryBudgetStore.check_budget`. -/
def check_budget (c : Clock) (s : BudgetState) (team_id : String)
    (estimated_cost : ℚ) : Bool × BudgetReason :=
  let budget := get_budget c s team_id
  if budget.daily_remaining_usd < estimated_cost then
    (false, .dailyExceeded team_id budget.daily_used_usd budget.daily_limit_usd)
  else if budget.monthly_remaining_usd < estimated_cost then
    (false, .monthlyExceeded team_id budget.monthly_used_usd budget.monthly_limit_usd)
  else (true, .empty)

/-- `InMemoryBudgetStore.record_usage`. -/
def record_usage (c : Clock) (s : BudgetState) (team_id : String)
    (actual_cost : ℚ) : BudgetState :=
  let today := c.localDay
  let month := c.localMonth
  let du := (s.dailyUsage.lookup team_id).getD []
  let du := upsert (DayKey.cost today)
    ((du.lookup (DayKey.cost today)).getD 0 + actual_cost) du
  let du := upsert (DayKey.count today)
    ((du.lookup (DayKey.count today)).getD 0 + 1) du
  let mu := (s.monthlyUsage.lookup team_id).getD []
  let mu := upsert month ((mu.lookup month).getD 0 + actual_cost) mu
  { s with
    dailyUsage := upsert team_id du s.dailyUsage
    monthlyUsage := upsert team_id mu s.monthlyUsage }

/-- `InMemoryBudgetStore.set_team_budget`. -/
def set_team_budget (s : BudgetState) (team_id : String)
    (daily_usd monthly_usd : ℚ) : BudgetState :=
  { s with budgets := upsert team_id (daily_usd, monthly_usd) s.budgets }

/-- A mutating operation on the store, for stating properties over
arbitrary operation sequences. -/
inductive BudgetOp where
  | setBudget (team_id : String) (daily_usd monthly_usd : ℚ)
  | record (c : Clock) (team_id : String) (actual_cost : ℚ)

/-- Apply a sequence of store operations starting from the empty store. -/
def applyBudgetOps : List BudgetOp → BudgetState
  | [] => initBudgetState
  | op :: rest =>
      let s := applyBudgetOps rest
      match op with
      | .setBudget t d m => set_team_budget s t d m
      | .record c t cost => record_usage c s t cost

/-- Both remaining-budget fields of any budget view are clamped at zero. -/
theorem get_budget_remaining_nonneg (c : Clock) (s : BudgetState) (team : String) :
    0 ≤ (get_budget c s team).daily_remaining_usd ∧
    0 ≤ (get_budget c s team).monthly_remaining_usd := by
  unfold get_budget
  exact ⟨round6_nonneg (le_max_left 0 _), round6_nonneg (le_max_left 0 _)⟩

/-- C10: after any sequence of `set_team_budget` and `record_usage`
operations, the view returned by `get_budget` has
`daily_remaining_usd ≥ 0` and `monthly_remaining_usd ≥ 0`; remaining
budget is clamped at zero even when recorded usage exceeds the limit,
so callers never observe a negative remaining budget. -/
theorem c10_remaining_budget_never_negative (ops : List BudgetOp) (c : Clock)
    (team : String) :
    0 ≤ (get_budget c (applyBudgetOps ops) team).daily_remaining_usd ∧
    0 ≤ (get_budget c (applyBudgetOps ops) team).monthly_remaining_usd :=
  get_budget_remaining_nonneg c (applyBudgetOps ops) team

/-- C5: `check_budget` allows a request iff the estimated cost is at most
the minimum of the daily and monthly remaining budgets of the tenant's
current budget view, and when both checks fail the reported reason is
the daily one. -/
theorem c5_check_budget_min_and_daily_first (c : Clock) (s : BudgetState)
    (team : String) (cost : ℚ) :
    ((check_budget c s team cost).1 = true ↔
      cost ≤ min (get_budget c s team).daily_remaining_usd
        (get_budget c s team).monthly_remaining_usd) ∧
    ((get_budget c s team).daily_remaining_usd < cost →
      (get_budget c s team).monthly_remaining_usd < cost →
      (check_budget c s team cost).2 =
        BudgetReason.dailyExceeded team (get_budget c s team).daily_used_usd
          (get_budget c s team).daily_limit_usd) := by
  simp only [check_budget]
  by_cases h1 : (get_budget c s team).daily_remaining_usd < cost
  · rw [if_pos h1]
    refine ⟨?_, fun _ _ => rfl⟩
    simp only [Bool.false_eq_true, false_iff, le_min_iff, not_and, not_le]
    intro _
    linarith
  · rw [if_neg h1]
    by_cases h2 : (get_budget c s team).monthly_remaining_usd < cost
    · rw [if_pos h2]
      refine ⟨?_, fun hd _ => absurd hd h1⟩
      simp only [Bool.false_eq_true, false_iff, le_min_iff, not_and, not_le]
      intro _
      linarith
    · rw [if_neg h2]
      refine ⟨?_, fun hd _ => absurd hd h1⟩
      simp only [le_min_iff, true_iff]
      exact ⟨not_lt.mp h1, not_lt.mp h2⟩

/-- C5 witness: at a concrete store whose team has zero limits, a cost
of 1 exceeds both windows; the theorem's equivalence and its both-fail
clause are instantiated there. -/
theorem c5_check_budget_min_and_daily_first_witness :
    ((check_budget ⟨0, 0⟩ (set_team_budget initBudgetState "t" 0 0) "t" 1).1 = true ↔
      (1 : ℚ) ≤ min (get_budget ⟨0, 0⟩ (set_team_budget initBudgetState "t" 0 0) "t").daily_remaining_usd
        (get_budget ⟨0, 0⟩ (set_team_budget initBudgetState "t" 0 0) "t").monthly_remaining_usd) ∧
    (check_budget ⟨0, 0⟩ (set_team_budget initBudgetState "t" 0 0) "t" 1).2 =
      BudgetReason.dailyExceeded "t"
        (get_budget ⟨0, 0⟩ (set_team_budget initBudgetState "t" 0 0) "t").daily_used_usd
        (get_budget ⟨0, 0⟩ (set_team_budget initBudgetState "t" 0 0) "t").daily_limit_usd := by
  have h := c5_check_budget_min_and_daily_first ⟨0, 0⟩
    (set_team_budget initBudgetState "t" 0 0) "t" 1
  have hlt : (get_budget ⟨0, 0⟩ (set_team_budget initBudgetState "t" 0 0) "t").daily_remaining_usd < 1 ∧
      (get_budget ⟨0, 0⟩ (set_team_budget initBudgetState "t" 0 0) "t").monthly_remaining_usd < 1 := by
    norm_num [get_budget, set_team_budget, initBudgetState, upsert, round6, roundHalfEven]
  exact ⟨h.1, h.2 hlt.1 hlt.2⟩

/-- C9: the source keys the usage buckets by `date.today()`, the *local*
calendar date, not the UTC date the claim (and the source's own
"Resets at midnight UTC" message) describe.  At the instant 660 minutes
past the epoch (1970-01-01 11:00 UTC) in a UTC+14:00 process time zone,
`record_usage` writes the daily bucket of local day 1 (1970-01-02),
while the UTC date is day 0 (1970-01-01); the lazy-rollover part of the
claim does hold — reading the bucket of a fresh day yields 0 until the
next write. -/
theorem c9_daily_key_local_not_utc :
    Clock.localDay ⟨660, 840⟩ = 1 ∧
    Clock.utcDay ⟨660, 840⟩ = 0 ∧
    Clock.localDay ⟨660, 840⟩ ≠ Clock.utcDay ⟨660, 840⟩ ∧
    (((record_usage ⟨660, 840⟩ initBudgetState "t" 1).dailyUsage.lookup "t").getD []).lookup
      (DayKey.cost (Clock.localDay ⟨660, 840⟩)) = some 1 ∧
    (((record_usage ⟨660, 840⟩ initBudgetState "t" 1).dailyUsage.lookup "t").getD []).lookup
      (DayKey.cost (Clock.utcDay ⟨660, 840⟩)) = none ∧
    (get_budget ⟨660, 840⟩ (record_usage ⟨660, 840⟩ initBudgetState "t" 1) "t").daily_used_usd = 1 ∧
    (get_budget ⟨2100, 840⟩ (record_usage ⟨660, 840⟩ initBudgetState "t" 1) "t").daily_used_usd = 0 := by
  have hld : Clock.localDay ⟨660, 840⟩ = 1 := by decide
  have hud : Clock.utcDay ⟨660, 840⟩ = 0 := by decide
  have hld2 : Clock.localDay ⟨2100, 840⟩ = 2 := by decide
  have e1 : (DayKey.cost 2 == DayKey.cost 1) = false := by decide
  have e2 : (DayKey.cost 2 == DayKey.count 1) = false := by decide
  have e3 : (DayKey.count 1 == DayKey.cost 1) = false := by decide
  have e4 : (DayKey.cost 1 == DayKey.cost 1) = true := by decide
  have e5 : (DayKey.cost 1 == DayKey.count 1) = false := by decide
  have e6 : (DayKey.cost 0 == DayKey.cost 1) = false := by decide
  have e7 : (DayKey.cost 0 == DayKey.count 1) = false := by decide
  refine ⟨hld, hud, by rw [hld, hud]; decide, ?_, ?_, ?_, ?_⟩ <;>
    norm_num +decide [record_usage, get_budget, initBudgetState, upsert, hld, hud, hld2,
      round6, roundHalfEven, List.lookup, e1, e2, e3, e4, e5, e6, e7]

/-! ## Messages and the Gemini adapter's token synthesis -/

/-- Message roles from models.py. -/
inductive Role where
  | user
  | assistant
  | system
deriving DecidableEq, Repr

/-- A chat message (models.py `Message`). -/
structure Message where
  role : Role
  content : String
deriving DecidableEq, Repr

/-- The normalized `AdapterResponse` of adapters.py. -/
structure AdapterResponse where
  content : String
  model_used : String
  prompt_tokens : ℕ
  completion_tokens : ℕ
  provider : Provider
deriving DecidableEq, Repr

/-- ASCII whitespace as recognized by Python's `str.split()` (the
source's inputs are ASCII; the full Unicode whitespace set is not
modelled). -/
def isPySpace (c : Char) : Bool :=
  c = ' ' || c = '\t' || c = '\n' || c = '\r' || c = '\x0b' || c = '\x0c'

/-- Helper for `wsTokenCount`: counts maximal non-whitespace runs; the
flag records whether the previous character was whitespace (or the
start of the string). -/
def wsTokenCountGo : List Char → Bool → ℕ
  | [], _ => 0
  | c :: t, prevSpace =>
      (if prevSpace && !(isPySpace c) then 1 else 0) + wsTokenCountGo t (isPySpace c)

/-- `len(s.split())`: the number of whitespace-separated tokens. -/
def wsTokenCount (s : String) : ℕ := wsTokenCountGo s.toList true

/-- `" ".join(m.content for m in messages)` from `GeminiAdapter.complete`. -/
def joinContents (msgs : List Message) : String :=
  String.intercalate " " (msgs.map Message.content)

/-- `int(n * 1.3)` from `GeminiAdapter.complete`: multiplication by the
float 1.3 followed by `int()` truncation.  For every `n` below 10^15 the
float computation agrees with the exact value `⌊13·n/10⌋`, which is what
this models. -/
def geminiTokenEstimate (n : ℕ) : ℕ := 13 * n / 10

/-- The pure tail of `GeminiAdapter.complete` (adapters.py): given the
input messages and the text the vendor returned, the adapter synthesizes
both token counts since Gemini does not always report them. -/
def geminiComplete (messages : List Message) (model_name : String)
    (response_text : String) : AdapterResponse :=
  { content := response_text
    model_used := model_name
    prompt_tokens := geminiTokenEstimate (wsTokenCount (joinContents messages))
    completion_tokens := geminiTokenEstimate (wsTokenCount response_text)
    provider := .gemini }

/-- C8 (counterexample): the claim says the synthesized counts equal
`ceil(1.3 × whitespace_token_count)`.  For the single one-word message
"hello" the whitespace token count is 1, the code produces
`int(1 * 1.3) = 1`, but `ceil(1.3 × 1) = 2`. -/
theorem c8_gemini_not_ceil :
    wsTokenCount (joinContents [⟨Role.user, "hello"⟩]) = 1 ∧
    (geminiComplete [⟨Role.user, "hello"⟩] "gemini-1.5-flash" "ok ok").prompt_tokens = 1 ∧
    ⌈(1.3 : ℚ) * 1⌉ = 2 ∧
    (1 : ℤ) ≠ 2 := by
  refine ⟨by decide, by decide, ?_, by decide⟩
  rw [show (1.3 : ℚ) * 1 = 13 / 10 by norm_num, Int.ceil_eq_iff]
  norm_num

/-- The integer estimate is the floor of the exact product `1.3 × n`. -/
theorem geminiTokenEstimate_eq_floor (n : ℕ) :
    geminiTokenEstimate n = ⌊(1.3 : ℚ) * n⌋₊ := by
  have h : (1.3 : ℚ) * n = ((13 * n : ℕ) : ℚ) / ((10 : ℕ) : ℚ) := by
    push_cast
    ring
  rw [geminiTokenEstimate, h, Nat.floor_div_nat, Nat.floor_natCast]

/-- C8 (amended): the Gemini adapter synthesizes
`prompt_tokens = floor(1.3 × whitespace_token_count)` of the
space-joined input messages and
`completion_tokens = floor(1.3 × whitespace_token_count)` of the output
text (`int()` truncates; the spec's `ceil` is wrong). -/
theorem c8_gemini_tokens_floor (messages : List Message)
    (model_name response_text : String) :
    (geminiComplete messages model_name response_text).prompt_tokens =
      ⌊(1.3 : ℚ) * (wsTokenCount (joinContents messages) : ℚ)⌋₊ ∧
    (geminiComplete messages model_name response_text).completion_tokens =
      ⌊(1.3 : ℚ) * (wsTokenCount response_text : ℚ)⌋₊ :=
  ⟨geminiTokenEstimate_eq_floor _, geminiTokenEstimate_eq_floor _⟩

/-! ## Circuit breaker (router.py, `ProviderCircuitBreaker`) -/

/-- One provider's slot of the breaker: `_failures[p]` and
`_tripped_at[p]`; timestamps are seconds. -/
structure BreakerEntry where
  failures : ℕ
  tripped_at : Option ℤ
deriving DecidableEq, Repr

def FAILURE_THRESHOLD : ℕ := 3

def COOLDOWN_SECONDS : ℤ := 60

/-- State of `ProviderCircuitBreaker`: the two defaultdicts, viewed as
one total map. -/
def BreakerState : Type := Provider → BreakerEntry

/-- Fresh breaker: every provider has zero failures and no trip time
(the defaultdict defaults). -/
def initBreaker : BreakerState := fun _ => ⟨0, none⟩

/-- `ProviderCircuitBreaker.record_success`. -/
def record_success (p : Provider) (σ : BreakerState) : BreakerState :=
  fun q => if q = p then ⟨0, none⟩ else σ q

/-- `ProviderCircuitBreaker.record_failure`, with `datetime.utcnow()`
passed as `now`. -/
def record_failure (p : Provider) (now : ℤ) (σ : BreakerState) : BreakerState :=
  fun q =>
    if q = p then
      let f := (σ p).failures + 1
      ⟨f, if FAILURE_THRESHOLD ≤ f then some now else (σ p).tripped_at⟩
    else σ q

/-- `ProviderCircuitBreaker.is_open`: returns the answer and the
(possibly reset) state, since the cooldown-elapsed branch mutates. -/
def is_open (p : Provider) (now : ℤ) (σ : BreakerState) : Bool × BreakerState :=
  match (σ p).tripped_at with
  | none => (false, σ)
  | some tripped =>
      if COOLDOWN_SECONDS < now - tripped then
        (false, fun q => if q = p then ⟨0, none⟩ else σ q)
      else (true, σ)

theorem record_failure_at (p : Provider) (now : ℤ) (σ : BreakerState) :
    record_failure p now σ p =
      ⟨(σ p).failures + 1,
        if FAILURE_THRESHOLD ≤ (σ p).failures + 1 then some now
        else (σ p).tripped_at⟩ := by
  simp [record_failure]

theorem is_open_of_not_tripped (p : Provider) (now : ℤ) (σ : BreakerState)
    (h : (σ p).tripped_at = none) : is_open p now σ = (false, σ) := by
  unfold is_open
  split
  · rfl
  · simp_all

theorem is_open_within_cooldown (p : Provider) (now tr : ℤ) (σ : BreakerState)
    (h : (σ p).tripped_at = some tr) (hle : now - tr ≤ COOLDOWN_SECONDS) :
    is_open p now σ = (true, σ) := by
  unfold is_open
  split
  · simp_all
  · next tr' heq =>
      rw [h] at heq
      cases heq
      rw [if_neg (by omega)]

theorem is_open_after_cooldown (p : Provider) (now tr : ℤ) (σ : BreakerState)
    (h : (σ p).tripped_at = some tr) (hgt : COOLDOWN_SECONDS < now - tr) :
    (is_open p now σ).1 = false ∧ (is_open p now σ).2 p = ⟨0, none⟩ := by
  unfold is_open
  split
  · simp_all
  · next tr' heq =>
      rw [h] at heq
      cases heq
      rw [if_pos hgt]
      simp

/-- C6: with `FAILURE_THRESHOLD = 3` and `COOLDOWN = 60 s`: after three
consecutive `record_failure` calls with no intervening success, the slot
holds 3 failures tripped at the third failure's time; every `is_open`
query within the following 60 seconds answers `true` and leaves the
state unchanged; a query after the cooldown answers `false` and resets
the counter to zero, after which two further failures still leave
`is_open` answering `false` and only a third failure re-opens the
breaker for its own 60-second cooldown. -/
theorem c6_breaker_threshold_cooldown_reset (p : Provider) (t1 t2 t3 : ℤ) :
    (record_failure p t3 (record_failure p t2 (record_failure p t1 initBreaker)) p
      = ⟨3, some t3⟩) ∧
    (∀ t, t3 ≤ t → t ≤ t3 + COOLDOWN_SECONDS →
      is_open p t (record_failure p t3 (record_failure p t2 (record_failure p t1 initBreaker)))
        = (true,
            record_failure p t3 (record_failure p t2 (record_failure p t1 initBreaker)))) ∧
    (∀ t, t3 + COOLDOWN_SECONDS < t →
      (is_open p t (record_failure p t3 (record_failure p t2 (record_failure p t1 initBreaker)))).1
          = false ∧
      (is_open p t (record_failure p t3 (record_failure p t2 (record_failure p t1 initBreaker)))).2 p
          = ⟨0, none⟩) ∧
    (∀ t u1 u2 t4, t3 + COOLDOWN_SECONDS < t →
      (is_open p t4 (record_failure p u2 (record_failure p u1
        (is_open p t (record_failure p t3 (record_failure p t2 (record_failure p t1 initBreaker)))).2))).1
          = false) ∧
    (∀ t u1 u2 u3 t4, t3 + COOLDOWN_SECONDS < t → u3 ≤ t4 → t4 ≤ u3 + COOLDOWN_SECONDS →
      (is_open p t4 (record_failure p u3 (record_failure p u2 (record_failure p u1
        (is_open p t (record_failure p t3 (record_failure p t2 (record_failure p t1 initBreaker)))).2)))).1
          = true) := by
  have h1 : record_failure p t1 initBreaker p = ⟨1, none⟩ := by
    rw [record_failure_at]
    simp [initBreaker, FAILURE_THRESHOLD]
  have h2 : record_failure p t2 (record_failure p t1 initBreaker) p = ⟨2, none⟩ := by
    rw [record_failure_at, h1]
    simp [FAILURE_THRESHOLD]
  have h3 : record_failure p t3 (record_failure p t2 (record_failure p t1 initBreaker)) p
      = ⟨3, some t3⟩ := by
    rw [record_failure_at, h2]
    simp [FAILURE_THRESHOLD]
  have htr : (record_failure p t3 (record_failure p t2 (record_failure p t1 initBreaker)) p).tripped_at
      = some t3 := by rw [h3]
  refine ⟨h3, ?_, ?_, ?_, ?_⟩
  · intro t _ ht2
    exact is_open_within_cooldown p t t3 _ htr (by omega)
  · intro t ht
    exact is_open_after_cooldown p t t3 _ htr (by omega)
  · intro t u1 u2 t4 ht
    have hreset := (is_open_after_cooldown p t t3 _ htr (by omega)).2
    have hu1 : record_failure p u1
        (is_open p t (record_failure p t3 (record_failure p t2 (record_failure p t1 initBreaker)))).2 p
        = ⟨1, none⟩ := by
      rw [record_failure_at, hreset]
      simp [FAILURE_THRESHOLD]
    have hu2 : record_failure p u2 (record_failure p u1
        (is_open p t (record_failure p t3 (record_failure p t2 (record_failure p t1 initBreaker)))).2) p
        = ⟨2, none⟩ := by
      rw [record_failure_at, hu1]
      simp [FAILURE_THRESHOLD]
    rw [is_open_of_not_tripped p t4 _ (by rw [hu2])]
  · intro t u1 u2 u3 t4 ht hu3 ht4
    have hreset := (is_open_after_cooldown p t t3 _ htr (by omega)).2
    have hu1 : record_failure p u1
        (is_open p t (record_failure p t3 (record_failure p t2 (record_failure p t1 initBreaker)))).2 p
        = ⟨1, none⟩ := by
      rw [record_failure_at, hreset]
      simp [FAILURE_THRESHOLD]
    have hu2 : record_failure p u2 (record_failure p u1
        (is_open p t (record_failure p t3 (record_failure p t2 (record_failure p t1 initBreaker)))).2) p
        = ⟨2, none⟩ := by
      rw [record_failure_at, hu1]
      simp [FAILURE_THRESHOLD]
    have hu3' : record_failure p u3 (record_failure p u2 (record_failure p u1
        (is_open p t (record_failure p t3 (record_failure p t2 (record_failure p t1 initBreaker)))).2)) p
        = ⟨3, some u3⟩ := by
      rw [record_failure_at, hu2]
      simp [FAILURE_THRESHOLD]
    rw [is_open_within_cooldown p t4 u3 _ (by rw [hu3']) (by omega)]

/-- C6 witness: the lifecycle instantiated at provider `anthropic` with
failures at times 0, 1, 2, a query inside the cooldown at 30, the
resetting query at 63, two harmless new failures at 100 and 101 queried
at 102, and a third new failure at 102 queried at 130. -/
theorem c6_breaker_threshold_cooldown_reset_witness :
    is_open .anthropic 30
        (record_failure .anthropic 2 (record_failure .anthropic 1
          (record_failure .anthropic 0 initBreaker)))
      = (true, record_failure .anthropic 2 (record_failure .anthropic 1
          (record_failure .anthropic 0 initBreaker))) ∧
    (is_open .anthropic 63
        (record_failure .anthropic 2 (record_failure .anthropic 1
          (record_failure .anthropic 0 initBreaker)))).1 = false ∧
    (is_open .anthropic 102 (record_failure .anthropic 101 (record_failure .anthropic 100
        (is_open .anthropic 63 (record_failure .anthropic 2 (record_failure .anthropic 1
          (record_failure .anthropic 0 initBreaker)))).2))).1 = false ∧
    (is_open .anthropic 130 (record_failure .anthropic 102 (record_failure .anthropic 101
        (record_failure .anthropic 100
          (is_open .anthropic 63 (record_failure .anthropic 2 (record_failure .anthropic 1
            (record_failure .anthropic 0 initBreaker)))).2)))).1 = true := by
  have h := c6_breaker_threshold_cooldown_reset .anthropic 0 1 2
  exact ⟨h.2.1 30 (by decide) (by decide),
    (h.2.2.1 63 (by decide)).1,
    h.2.2.2.1 63 100 101 102 (by decide),
    h.2.2.2.2 63 100 101 102 130 (by decide) (by decide) (by decide)⟩

/-! ## Router (router.py, `route_request`)

The routing loop is modelled against an environment fixing, for this
request, adapter registration (`PROVIDER_REGISTRY` membership),
availability (`is_available()`), the breaker answer (`is_open`) and the
outcome of `adapter.complete(...)` (the error message of the raised
exception, or the response).  Breaker bookkeeping inside the loop does
not influence the returned triple and is not part of this model. -/

structure RouteEnv where
  hasAdapter : Provider → Bool
  available : Provider → Bool
  breakerOpen : Provider → Bool
  attempt : Provider → Sum String AdapterResponse

/-- The skip reason recorded for an unconfigured provider. -/
def notConfiguredMsg : String := "Not configured (missing API key)"

/-- The skip reason recorded for a breaker-open provider. -/
def breakerOpenMsg : String := "Circuit breaker open (too many recent failures)"

/-- The f-string `f"Fell back from {first_tried.value}: {...}"`. -/
def fallbackMsg (first_tried : Provider) (err : String) : String :=
  "Fell back from " ++ first_tried.value ++ ": " ++ err

/-- The `for provider in priority` loop of `route_request`, with the
mutable `provider_errors`, `first_tried`, `fallback_triggered` and
`fallback_reason` threaded explicitly.  `Sum.inl` is the final
`GatewayError` carrying the error dictionary. -/
def routeGo (env : RouteEnv) :
    List Provider → List (Provider × String) → Option Provider → Bool → Option String →
      Sum (List (Provider × String)) (AdapterResponse × Bool × Option String)
  | [], errors, _, _, _ => .inl errors
  | p :: rest, errors, firstTried, fb, reason =>
    if !(env.hasAdapter p) then
      routeGo env rest errors firstTried fb reason
    else if !(env.available p) then
      routeGo env rest (upsert p notConfiguredMsg errors) firstTried fb reason
    else if env.breakerOpen p then
      routeGo env rest (upsert p breakerOpenMsg errors) firstTried fb reason
    else
      match firstTried with
      | some ft =>
          let reason' := some (fallbackMsg ft ((errors.lookup ft).getD "unknown error"))
          match env.attempt p with
          | .inr resp => .inr (resp, true, reason')
          | .inl err => routeGo env rest (upsert p err errors) (some ft) true reason'
      | none =>
          match env.attempt p with
          | .inr resp => .inr (resp, fb, reason)
          | .inl err => routeGo env rest (upsert p err errors) (some p) fb reason

/-- The order-building preamble of `route_request` (lines 95-101):
filter the configured priority names by registry membership, then
unconditionally move a supplied preferred provider to the front. -/
def buildPriority (hasAdapter : Provider → Bool) (priorityNames : List Provider)
    (preferred : Option Provider) : List Provider :=
  let priority := priorityNames.filter hasAdapter
  match preferred with
  | some p => p :: priority.filter (fun q => q != p)
  | none => priority

/-- `route_request` (router.py): build the traversal order, then run the
provider loop with empty error dict and no fallback state. -/
def route_request (env : RouteEnv) (priorityNames : List Provider)
    (preferred : Option Provider) :
    Sum (List (Provider × String)) (AdapterResponse × Bool × Option String) :=
  routeGo env (buildPriority env.hasAdapter priorityNames preferred) [] none false none

/-- A provider the loop will actually attempt: registered, configured,
and breaker closed. -/
def eligible (env : RouteEnv) (p : Provider) : Bool :=
  env.hasAdapter p && (env.available p && !env.breakerOpen p)

theorem eligible_true_iff (env : RouteEnv) (p : Provider) :
    eligible env p = true ↔
      env.hasAdapter p = true ∧ env.available p = true ∧ env.breakerOpen p = false := by
  simp [eligible, Bool.and_eq_true, Bool.not_eq_true']

theorem lookup_upsert_self {α β : Type} [BEq α] [LawfulBEq α] (k : α) (v : β)
    (l : List (α × β)) : (upsert k v l).lookup k = some v := by
  induction l with
  | nil => simp [upsert, List.lookup]
  | cons hd tl ih =>
      obtain ⟨a, b⟩ := hd
      by_cases h : a = k
      · subst h
        simp [upsert, List.lookup]
      · have h1 : (a == k) = false := beq_eq_false_iff_ne.mpr h
        have h2 : (k == a) = false := beq_eq_false_iff_ne.mpr (Ne.symm h)
        simp [upsert, List.lookup, h1, h2, ih]

theorem lookup_upsert_ne {α β : Type} [BEq α] [LawfulBEq α] (k a : α) (v : β)
    (l : List (α × β)) (h : a ≠ k) :
    (upsert k v l).lookup a = l.lookup a := by
  induction l with
  | nil => simp [upsert, List.lookup, beq_eq_false_iff_ne.mpr h]
  | cons hd tl ih =>
      obtain ⟨c, b⟩ := hd
      by_cases hc : c = k
      · subst hc
        simp [upsert, List.lookup, beq_eq_false_iff_ne.mpr h]
      · have h1 : (c == k) = false := beq_eq_false_iff_ne.mpr hc
        simp [upsert, List.lookup, h1, ih]

/-- Skipping a non-eligible head only touches that provider's slot of
the error dictionary. -/
theorem routeGo_skip_head (env : RouteEnv) (p : Provider) (rest : List Provider)
    (errors : List (Provider × String)) (ftOpt : Option Provider) (fb : Bool)
    (rs : Option String) (h : eligible env p = false) :
    ∃ errors', routeGo env (p :: rest) errors ftOpt fb rs
        = routeGo env rest errors' ftOpt fb rs ∧
      ∀ a : Provider, a ≠ p → errors'.lookup a = errors.lookup a := by
  cases h1 : env.hasAdapter p with
  | false => exact ⟨errors, by simp [routeGo, h1], fun a _ => rfl⟩
  | true =>
      cases h2 : env.available p with
      | false =>
          refine ⟨upsert p notConfiguredMsg errors, by simp [routeGo, h1, h2], ?_⟩
          exact fun a ha => lookup_upsert_ne p a _ errors ha
      | true =>
          have h3 : env.breakerOpen p = true := by
            by_contra hcon
            rw [eq_comm] at h
            exact absurd ((eligible_true_iff env p).mpr
              ⟨h1, h2, Bool.not_eq_true _ ▸ hcon⟩) (by simp [← h])
          refine ⟨upsert p breakerOpenMsg errors, by simp [routeGo, h1, h2, h3], ?_⟩
          exact fun a ha => lookup_upsert_ne p a _ errors ha

/-- Skipping a whole prefix of non-eligible providers. -/
theorem routeGo_skip_all (env : RouteEnv) (pre : List Provider) :
    ∀ (rest : List Provider) (errors : List (Provider × String)) (ftOpt : Option Provider)
      (fb : Bool) (rs : Option String), (∀ p ∈ pre, eligible env p = false) →
      ∃ errors', routeGo env (pre ++ rest) errors ftOpt fb rs
          = routeGo env rest errors' ftOpt fb rs := by
  induction pre with
  | nil => exact fun rest errors ftOpt fb rs _ => ⟨errors, rfl⟩
  | cons p pre' ih =>
      intro rest errors ftOpt fb rs hall
      obtain ⟨errors', heq, _⟩ :=
        routeGo_skip_head env p (pre' ++ rest) errors ftOpt fb rs (hall p (by simp))
      obtain ⟨errors'', heq'⟩ := ih rest errors' ftOpt fb rs
        (fun q hq => hall q (by simp [hq]))
      exact ⟨errors'', by rw [List.cons_append, heq, heq']⟩

/-- Attempting an eligible head with no provider attempted yet: on
failure the loop records the error, marks the head as `first_tried`, and
continues without raising the fallback flag. -/
theorem routeGo_first_fails (env : RouteEnv) (p : Provider) (rest : List Provider)
    (errors : List (Provider × String)) (fb : Bool) (rs : Option String) (e : String)
    (hel : eligible env p = true) (he : env.attempt p = .inl e) :
    routeGo env (p :: rest) errors none fb rs
      = routeGo env rest (upsert p e errors) (some p) fb rs := by
  obtain ⟨h1, h2, h3⟩ := (eligible_true_iff env p).mp hel
  simp [routeGo, h1, h2, h3, he]

/-- After `first_tried = ft` failed with error `e`, traversing failing
or skipped providers and then an eligible succeeding one returns the
fallback flag and the reason built from `ft`'s recorded error. -/
theorem routeGo_mid_then_success (env : RouteEnv) (ft q : Provider) (e : String)
    (r : AdapterResponse) (hftel : eligible env ft = true)
    (hfte : env.attempt ft = .inl e) (hq : eligible env q = true)
    (hqr : env.attempt q = .inr r) (mid : List Provider) :
    ∀ (post : List Provider) (errors : List (Provider × String)) (fb : Bool)
      (rs : Option String),
      (∀ p ∈ mid, eligible env p = true → (env.attempt p).isLeft = true) →
      errors.lookup ft = some e →
      routeGo env (mid ++ q :: post) errors (some ft) fb rs
        = .inr (r, true, some (fallbackMsg ft e)) := by
  induction mid with
  | nil =>
      intro post errors fb rs _ hlook
      obtain ⟨h1, h2, h3⟩ := (eligible_true_iff env q).mp hq
      simp [routeGo, h1, h2, h3, hqr, hlook]
  | cons p mid' ih =>
      intro post errors fb rs hmid hlook
      by_cases hel : eligible env p = true
      · obtain ⟨h1, h2, h3⟩ := (eligible_true_iff env p).mp hel
        obtain ⟨err, herr⟩ := Sum.isLeft_iff.mp (hmid p (by simp) hel)
        have hstep : routeGo env ((p :: mid') ++ (q :: post)) errors (some ft) fb rs
            = routeGo env (mid' ++ q :: post) (upsert p err errors) (some ft) true
                (some (fallbackMsg ft e)) := by
          simp [routeGo, h1, h2, h3, herr, hlook]
        rw [hstep]
        refine ih post (upsert p err errors) true (some (fallbackMsg ft e))
          (fun p' hp' => hmid p' (by simp [hp'])) ?_
        by_cases hpf : p = ft
        · subst hpf
          rw [herr] at hfte
          cases hfte
          exact lookup_upsert_self p e errors
        · rw [lookup_upsert_ne p ft err errors (Ne.symm hpf)]
          exact hlook
      · obtain ⟨errors', heq, hpres⟩ := routeGo_skip_head env p (mid' ++ q :: post)
          errors (some ft) fb rs (by simpa using hel)
        rw [List.cons_append, heq]
        refine ih post errors' fb rs (fun p' hp' => hmid p' (by simp [hp'])) ?_
        rw [hpres ft ?_, hlook]
        intro hftp
        rw [hftp] at hftel
        exact absurd hftel (by simp [hel])

/-- C3: if the first attempted (not merely skipped) provider `ft` fails
with error `e`, every eligible provider between it and `q` also fails,
and `q` succeeds with response `r`, then `route_request` returns
`fallback_triggered = true` with the reason built from `ft` and its
error — regardless of how many intermediate providers failed. -/
theorem c3_fallback_reason_references_first_attempted (env : RouteEnv)
    (names : List Provider) (preferred : Option Provider)
    (pre mid post : List Provider) (ft q : Provider) (e : String) (r : AdapterResponse)
    (horder : buildPriority env.hasAdapter names preferred = pre ++ ft :: (mid ++ q :: post))
    (hpre : ∀ p ∈ pre, eligible env p = false)
    (hft : eligible env ft = true)
    (hfte : env.attempt ft = .inl e)
    (hmid : ∀ p ∈ mid, eligible env p = true → (env.attempt p).isLeft = true)
    (hq : eligible env q = true)
    (hqr : env.attempt q = .inr r) :
    route_request env names preferred = .inr (r, true, some (fallbackMsg ft e)) := by
  unfold route_request
  rw [horder]
  obtain ⟨errors', hskip⟩ :=
    routeGo_skip_all env pre (ft :: (mid ++ q :: post)) [] none false none hpre
  rw [hskip, routeGo_first_fails env ft _ errors' false none e hft hfte]
  exact routeGo_mid_then_success env ft q e r hft hfte hq hqr mid post
    (upsert ft e errors') false none hmid (lookup_upsert_self ft e errors')

/-- Demo environment for C3: everything registered, configured and
breaker-closed; anthropic and openai raise, gemini succeeds. -/
def c3DemoResp : AdapterResponse := ⟨"pong", "gemini-1.5-flash", 4, 2, Provider.gemini⟩

def c3DemoEnv : RouteEnv where
  hasAdapter := fun _ => true
  available := fun _ => true
  breakerOpen := fun _ => false
  attempt := fun p =>
    match p with
    | .anthropic => .inl "anthropic: 500 upstream error"
    | .openai => .inl "openai: rate limited"
    | .azure_openai => .inl "azure down"
    | .gemini => .inr c3DemoResp

/-- C3 witness: anthropic fails, openai also fails, gemini succeeds; the
returned reason still references anthropic, the first attempted. -/
theorem c3_fallback_reason_references_first_attempted_witness :
    route_request c3DemoEnv [Provider.anthropic, Provider.openai, Provider.gemini] none
      = .inr (c3DemoResp, true,
          some (fallbackMsg Provider.anthropic "anthropic: 500 upstream error")) := by
  refine c3_fallback_reason_references_first_attempted c3DemoEnv
    [Provider.anthropic, Provider.openai, Provider.gemini] none
    [] [Provider.openai] [] Provider.anthropic Provider.gemini
    "anthropic: 500 upstream error" c3DemoResp ?_ ?_ ?_ ?_ ?_ ?_ ?_ <;> decide

/-- Demo environment for C2: anthropic's breaker is open, openai is
healthy and succeeds. -/
def c2DemoResp : AdapterResponse := ⟨"ok", "gpt-4o", 3, 5, Provider.openai⟩

def c2DemoEnv : RouteEnv where
  hasAdapter := fun _ => true
  available := fun _ => true
  breakerOpen := fun p => p == Provider.anthropic
  attempt := fun p =>
    match p with
    | .openai => .inr c2DemoResp
    | _ => .inl "unreachable"

/-- C2 (counterexample): the claim says that when the highest-priority
provider is skipped because its breaker is open and the next provider
succeeds, the result carries `fallback_triggered = true` and a reason
mentioning the circuit breaker.  In this environment anthropic's breaker
is open and openai succeeds, yet `route_request` returns
`fallback_triggered = false` and no reason at all: a provider that is
merely skipped never establishes `first_tried`. -/
theorem c2_skipped_breaker_does_not_trigger_fallback :
    c2DemoEnv.breakerOpen Provider.anthropic = true ∧
    c2DemoEnv.attempt Provider.openai = .inr c2DemoResp ∧
    route_request c2DemoEnv [Provider.anthropic, Provider.openai] none
      = .inr (c2DemoResp, false, none) := by
  decide

/-- C2 (amended): if the first provider of the order is skipped because
its circuit breaker is open (so it is never attempted) and the next
provider succeeds, `route_request` returns the response with
`fallback_triggered = false` and `fallback_reason = none`; the breaker
skip is only recorded in the error dictionary, and the fallback flag is
reserved for failures of an actually attempted provider. -/
theorem c2_breaker_skip_then_success_no_flag (env : RouteEnv) (A B : Provider)
    (r : AdapterResponse)
    (hA1 : env.hasAdapter A = true) (hA2 : env.available A = true)
    (hA3 : env.breakerOpen A = true)
    (hB1 : env.hasAdapter B = true) (hB2 : env.available B = true)
    (hB3 : env.breakerOpen B = false) (hBr : env.attempt B = .inr r) :
    route_request env [A, B] none = .inr (r, false, none) := by
  simp [route_request, buildPriority, routeGo, hA1, hA2, hA3, hB1, hB2, hB3, hBr]

/-- C2 witness: the amended theorem instantiated on the demo
environment. -/
theorem c2_breaker_skip_then_success_no_flag_witness :
    route_request c2DemoEnv [Provider.anthropic, Provider.openai] none
      = .inr (c2DemoResp, false, none) :=
  c2_breaker_skip_then_success_no_flag c2DemoEnv Provider.anthropic Provider.openai
    c2DemoResp (by decide) (by decide) (by decide) (by decide) (by decide) (by decide)
    (by decide)

/-- C4 (counterexample): the claim says a preferred provider not in the
configured priority list leaves the traversal order untouched.  With the
configured list `[anthropic]` and preferred `openai`, the code
nevertheless prepends `openai`. -/
theorem c4_preferred_not_in_list_still_prepended :
    (Provider.openai ∈ [Provider.anthropic]) = False ∧
    buildPriority (fun _ => true) [Provider.anthropic] (some Provider.openai)
      = [Provider.openai, Provider.anthropic] ∧
    buildPriority (fun _ => true) [Provider.anthropic] (some Provider.openai)
      ≠ [Provider.anthropic] := by
  refine ⟨by simp, by decide, by decide⟩

/-- C4 (amended): a supplied preferred provider is *always* moved to the
front of the traversal order, whether or not it appears in the
configured priority list; in particular, when it is not in the
registry-filtered list, the resulting order is the preferred provider
prepended to the otherwise untouched list. -/
theorem c4_preferred_prepended (reg : Provider → Bool) (names : List Provider)
    (p : Provider) (h : p ∉ names.filter reg) :
    buildPriority reg names (some p) = p :: names.filter reg := by
  show p :: (names.filter reg).filter (fun q => q != p) = p :: names.filter reg
  congr 1
  apply List.filter_eq_self.mpr
  intro a ha
  simp only [bne_iff_ne, ne_eq]
  intro hap
  exact h (hap ▸ ha)

/-- C4 witness: with the configured list `[anthropic]`, all providers
registered, and preferred `openai` (not in the list), the order becomes
`[openai, anthropic]`. -/
theorem c4_preferred_prepended_witness :
    buildPriority (fun _ => true) [Provider.anthropic] (some Provider.openai)
      = Provider.openai :: [Provider.anthropic].filter (fun _ => true) :=
  c4_preferred_prepended (fun _ => true) [Provider.anthropic] Provider.openai
    (by decide)

/-! ## PII redactor: the regex fallback backend (pii_redactor.py)

The five detector regexes are compiled, pattern by pattern, into
deterministic matchers over character lists.  `matchAt prev s` answers
whether the leftmost-anchored match of the pattern starts at the
current position (whose remaining text is `s` and whose preceding
character is `prev`), returning the matched length.  Greedy
sub-expressions whose skip-alternative provably fails at once (an
optional separator in front of a mandatory digit, for instance) are
compiled to committed reads; the phone pattern's `1?` and the e-mail
pattern's domain/TLD splits need genuine backtracking and are compiled
to ordered searches.  `\w` (hence `\b`) is modelled on ASCII:
non-ASCII word characters are treated as non-word. -/

/-- Python's `\w` on ASCII: letters, digits, underscore. -/
def isWordChar (c : Char) : Bool := c.isAlpha || c.isDigit || c = '_'

/-- Wordness of an optional character; string edges count as non-word. -/
def isWordOpt : Option Char → Bool
  | none => false
  | some c => isWordChar c

/-- `\b` between two neighbouring characters. -/
def bdry (a b : Option Char) : Bool := isWordOpt a != isWordOpt b

/-- The local-part class `[A-Za-z0-9._%+\-]`. -/
def isLClass (c : Char) : Bool :=
  c.isAlpha || c.isDigit || c = '.' || c = '_' || c = '%' || c = '+' || c = '-'

/-- The domain class `[A-Za-z0-9.\-]`. -/
def isDClass (c : Char) : Bool := c.isAlpha || c.isDigit || c = '.' || c = '-'

/-- The TLD class `[A-Z|a-z]` (the source's character class contains a
literal `|`). -/
def isTClass (c : Char) : Bool := c.isAlpha || c = '|'

/-- The separator class `[\s.\-]`. -/
def isSepClass (c : Char) : Bool := isPySpace c || c = '.' || c = '-'

/-- Is the character at index `i` a digit? -/
def isDigitAt (s : List Char) (i : ℕ) : Bool :=
  match s.get? i with
  | some c => c.isDigit
  | none => false

/-- Does the character at index `i` exist and satisfy `p`? -/
def charAt (p : Char → Bool) (s : List Char) (i : ℕ) : Bool :=
  match s.get? i with
  | some c => p c
  | none => false

/-- Length of the maximal prefix satisfying `p`. -/
def leadCount (p : Char → Bool) : List Char → ℕ
  | [] => 0
  | c :: t => if p c then leadCount p t + 1 else 0

/-- A matcher: given the previous character and the remaining text,
the length of a pattern match anchored at this position, if any. -/
def Matcher : Type := Option Char → List Char → Option ℕ

/-- `k` consecutive digits starting at `j`, returning the end index. -/
def digitsFrom (k : ℕ) (s : List Char) (j : ℕ) : Option ℕ :=
  if (List.range k).all (fun x => isDigitAt s (j + x)) then some (j + k) else none

/-- Committed optional single-character read. -/
def optChar (p : Char → Bool) (s : List Char) (j : ℕ) : ℕ :=
  if charAt p s j then j + 1 else j

/-- `\b\d{3}-\d{2}-\d{4}\b` (US_SSN). -/
def ssnAt : Matcher := fun prev s =>
  if bdry prev (s.get? 0) && isDigitAt s 0 && isDigitAt s 1 && isDigitAt s 2
      && charAt (· = '-') s 3 && isDigitAt s 4 && isDigitAt s 5
      && charAt (· = '-') s 6 && isDigitAt s 7 && isDigitAt s 8 && isDigitAt s 9
      && isDigitAt s 10 && bdry (s.get? 10) (s.get? 11) then
    some 11
  else none

/-- The tail `(?:\d{4}[\s\-]?)` groups of the credit-card pattern:
`g+1` groups of four digits remain; every group but the last may
consume one separator (committed: a skipped separator would make the
following mandatory digit fail). -/
def ccGroups (s : List Char) : ℕ → ℕ → Option ℕ
  | j, 0 =>
      if bdry (s.get? (j - 1)) (s.get? j) then some j else none
  | j, g + 1 =>
      (digitsFrom 4 s j).bind fun j' =>
        ccGroups s (if g = 0 then j' else optChar (fun c => isPySpace c || c = '-') s j') g

/-- `\b(?:\d{4}[\s\-]?){3}\d{4}\b` (CREDIT_CARD). -/
def ccAt : Matcher := fun prev s =>
  if bdry prev (s.get? 0) then ccGroups s 0 4 else none

/-- One IP octet followed by a literal dot.  `\d{1,3}` greedy before
`\.` is deterministic: shorter digit choices put a digit where the dot
must be. -/
def ipOctetDot (s : List Char) (j : ℕ) : Option ℕ :=
  let r := if isDigitAt s j then
    (if isDigitAt s (j + 1) then (if isDigitAt s (j + 2) then 3 else 2) else 1)
    else 0
  if r = 0 then none
  else if isDigitAt s (j + r) then none
  else if s.get? (j + r) = some '.' then some (j + r + 1) else none

/-- The final `\d{1,3}\b` of the IP pattern. -/
def ipFinal (s : List Char) (j : ℕ) : Option ℕ :=
  let r := if isDigitAt s j then
    (if isDigitAt s (j + 1) then (if isDigitAt s (j + 2) then 3 else 2) else 1)
    else 0
  if r = 0 then none
  else if isDigitAt s (j + r) then none
  else if bdry (s.get? (j + r - 1)) (s.get? (j + r)) then some (j + r) else none

/-- `\b(?:\d{1,3}\.){3}\d{1,3}\b` (IP_ADDRESS). -/
def ipAt : Matcher := fun prev s =>
  if bdry prev (s.get? 0) then
    (ipOctetDot s 0).bind fun j1 =>
      (ipOctetDot s j1).bind fun j2 =>
        (ipOctetDot s j2).bind fun j3 => ipFinal s j3
  else none

/-- `\(?\d{3}\)?[\s.\-]?\d{3}[\s.\-]?\d{4}\b`: groups 2 and 3 of the
phone pattern, starting at `j0`; all optional reads are committed
(skipping them would land a mandatory digit on a non-digit). -/
def phoneTail (s : List Char) (j0 : ℕ) : Option ℕ :=
  let j1 := optChar (· = '(') s j0
  (digitsFrom 3 s j1).bind fun j2 =>
    let j3 := optChar (· = ')') s j2
    let j4 := optChar isSepClass s j3
    (digitsFrom 3 s j4).bind fun j5 =>
      let j6 := optChar isSepClass s j5
      (digitsFrom 4 s j6).bind fun j7 =>
        if bdry (s.get? (j7 - 1)) (s.get? j7) then some j7 else none

/-- `\b(\+?1?\s?)?(\(?\d{3}\)?[\s.\-]?)(\d{3}[\s.\-]?\d{4})\b`
(PHONE_NUMBER).  `\+?` and `\s?` are committed; `1?` genuinely
backtracks: taking the `1` is tried first, skipping it second. -/
def phoneAt : Matcher := fun prev s =>
  if bdry prev (s.get? 0) then
    let j := if s.get? 0 = some '+' then 1 else 0
    (if s.get? j = some '1' then phoneTail s (optChar isPySpace s (j + 1))
     else none) <|>
      phoneTail s (optChar isPySpace s j)
  else none

/-- TLD search of the e-mail pattern: `[A-Z|a-z]{2,}` greedy, then
`\b`; tries lengths `t, t-1, …, 2` and returns the end index in `s`. -/
def emailTldGo (s : List Char) (tstart : ℕ) : ℕ → Option ℕ
  | 0 => none
  | t + 1 =>
      if 2 ≤ t + 1 then
        (if bdry (s.get? (tstart + t)) (s.get? (tstart + t + 1)) then
          some (tstart + t + 1)
        else emailTldGo s tstart t)
      else none

/-- Try the TLD after a domain dot at index `d` (both indices into the
text after the `@`): greedy maximal TLD run, backing off to length 2. -/
def emailTld (s : List Char) (at0 : ℕ) (d : ℕ) : Option ℕ :=
  emailTldGo s (at0 + d + 1) (leadCount isTClass (s.drop (at0 + d + 1)))

/-- Domain search of the e-mail pattern: `[A-Za-z0-9.\-]+\.` greedy
tries the rightmost dot of the domain run first; `k` is the dot
position currently tried (relative to the character after `@`). -/
def emailDom (s : List Char) (at0 : ℕ) : ℕ → Option ℕ
  | 0 => none
  | k + 1 =>
      (if s.get? (at0 + k + 1) = some '.' then emailTld s at0 (k + 1) else none)
        <|> emailDom s at0 k

/-- `\b[A-Za-z0-9._%+\-]+@[A-Za-z0-9.\-]+\.[A-Z|a-z]{2,}\b`
(EMAIL_ADDRESS).  The local part is deterministic (its class excludes
`@`); the domain dot and the TLD length backtrack. -/
def emailAt : Matcher := fun prev s =>
  if bdry prev (s.get? 0) then
    let l := leadCount isLClass s
    if l = 0 then none
    else if s.get? l = some '@' then
      emailDom s (l + 1) (leadCount isDClass (s.drop (l + 1)) - 1)
    else none
  else none

/-- `pattern.sub` and `len(pattern.findall(...))` in one pass: replace
every leftmost non-overlapping match by `ph` and count them.  The scan
resumes after the matched span of the *original* text, so `prev` is the
last original character before the resume point, exactly as in `re`. -/
def subScanGo (m : Matcher) (ph : List Char) : ℕ → Option Char → List Char → List Char × ℕ
  | 0, _, _ => ([], 0)
  | _ + 1, _, [] => ([], 0)
  | fuel + 1, prev, c :: rest =>
      match m prev (c :: rest) with
      | some (n + 1) =>
          let res := subScanGo m ph fuel ((c :: rest).get? n) (rest.drop n)
          (ph ++ res.1, res.2 + 1)
      | _ =>
          let res := subScanGo m ph fuel (some c) rest
          (c :: res.1, res.2)

def subScan (m : Matcher) (ph : List Char) (prev : Option Char) (s : List Char) :
    List Char × ℕ :=
  subScanGo m ph s.length prev s

/-- The result record of `PIIRedactor.redact`. -/
structure RedactionResult where
  redacted_text : String
  entities_found : List String
  redaction_count : ℕ
deriving DecidableEq, Repr

/-- `f"<{entity_type}>"`. -/
def placeholderFor (name : String) : List Char := '<' :: (name.toList ++ ['>'])

/-- One iteration of the `for entity_type, pattern in self._patterns.items()`
loop of `_redact_regex`: if the pattern has matches, record the entity
kind, add the match count, and substitute. -/
def redactStep (m : Matcher) (name : String)
    (acc : List Char × List String × ℕ) : List Char × List String × ℕ :=
  let r := subScan m (placeholderFor name) none acc.1
  if r.2 = 0 then acc else (r.1, acc.2.1 ++ [name], acc.2.2 + r.2)

/-- `PIIRedactor._redact_regex`, with the dict's insertion order of the
five patterns unrolled. -/
def _redact_regex (text : String) : RedactionResult :=
  let a1 := redactStep emailAt "EMAIL_ADDRESS" (text.toList, [], 0)
  let a2 := redactStep phoneAt "PHONE_NUMBER" a1
  let a3 := redactStep ccAt "CREDIT_CARD" a2
  let a4 := redactStep ssnAt "US_SSN" a3
  let a5 := redactStep ipAt "IP_ADDRESS" a4
  ⟨String.mk a5.1, a5.2.1, a5.2.2⟩

/-- `PIIRedactor.redact` on the regex fallback backend (`Presidio`
absent), with `settings.pii_redaction_enabled` passed explicitly. -/
def redact (enabled : Bool) (text : String) : RedactionResult :=
  if enabled then _redact_regex text else ⟨text, [], 0⟩

/-! ### Character-class and scanning prerequisites -/

theorem isWordChar_of_isDigit {c : Char} (h : c.isDigit = true) : isWordChar c = true := by
  simp [isWordChar, h]

theorem not_isDigit_of_not_word {c : Char} (h : isWordChar c = false) : c.isDigit = false := by
  by_contra hd
  rw [isWordChar_of_isDigit (by revert hd; cases c.isDigit <;> simp)] at h
  cases h

theorem charAt_eq_true {p : Char → Bool} {s : List Char} {i : ℕ}
    (h : charAt p s i = true) : ∃ c, s.get? i = some c ∧ p c = true := by
  unfold charAt at h
  cases hg : s.get? i with
  | none => rw [hg] at h; cases h
  | some c => rw [hg] at h; exact ⟨c, rfl, h⟩

theorem charAt_of_get {p : Char → Bool} {s : List Char} {i : ℕ} {c : Char}
    (hg : s.get? i = some c) (hp : p c = true) : charAt p s i = true := by
  unfold charAt
  rw [hg]
  exact hp

theorem isDigitAt_eq_true {s : List Char} {i : ℕ}
    (h : isDigitAt s i = true) : ∃ c, s.get? i = some c ∧ c.isDigit = true := by
  unfold isDigitAt at h
  cases hg : s.get? i with
  | none => rw [hg] at h; cases h
  | some c => rw [hg] at h; exact ⟨c, rfl, h⟩

theorem isDigitAt_of_get {s : List Char} {i : ℕ} {c : Char}
    (hg : s.get? i = some c) (hp : c.isDigit = true) : isDigitAt s i = true := by
  unfold isDigitAt
  rw [hg]
  exact hp

theorem isDigitAt_congr {s t : List Char} {i : ℕ} (h : s.get? i = t.get? i) :
    isDigitAt s i = isDigitAt t i := by
  unfold isDigitAt
  rw [h]

theorem charAt_congr {p : Char → Bool} {s t : List Char} {i : ℕ}
    (h : s.get? i = t.get? i) : charAt p s i = charAt p t i := by
  unfold charAt
  rw [h]

theorem isDigitAt_false_of_not_word {s : List Char} {i : ℕ}
    (h : isWordOpt (s.get? i) = false) : isDigitAt s i = false := by
  unfold isDigitAt
  cases hg : s.get? i with
  | none => rfl
  | some c =>
      rw [hg] at h
      exact not_isDigit_of_not_word h

theorem bdry_congr {a a' b b' : Option Char} (ha : isWordOpt a = isWordOpt a')
    (hb : isWordOpt b = isWordOpt b') : bdry a b = bdry a' b' := by
  simp [bdry, ha, hb]

/-- `bdry_congr` with the target sides positional, for rewriting. -/
theorem bdry_congr2 (a a' b b' : Option Char) (ha : isWordOpt a = isWordOpt a')
    (hb : isWordOpt b = isWordOpt b') : bdry a b = bdry a' b' := bdry_congr ha hb

/-- Facts about the maximal `p`-prefix: every earlier index satisfies
`p`, the index `leadCount p s` itself does not. -/
theorem leadCount_lt {p : Char → Bool} {s : List Char} :
    ∀ i, i < leadCount p s → charAt p s i = true := by
  induction s with
  | nil => intro i h; simp [leadCount] at h
  | cons c t ih =>
      intro i h
      by_cases hp : p c = true
      · cases i with
        | zero => exact charAt_of_get rfl hp
        | succ j =>
            simp only [leadCount, if_pos hp] at h
            have hj := ih j (by omega)
            unfold charAt at hj ⊢
            rwa [List.get?_cons_succ]
      · simp only [leadCount, if_neg hp] at h
        omega

theorem leadCount_at {p : Char → Bool} (s : List Char) :
    charAt p s (leadCount p s) = false := by
  induction s with
  | nil => rfl
  | cons c t ih =>
      by_cases hp : p c = true
      · simp only [leadCount, if_pos hp]
        unfold charAt at ih ⊢
        rwa [List.get?_cons_succ]
      · simp only [leadCount, if_neg hp]
        unfold charAt
        rw [List.get?_cons_zero]
        show p c = false
        simpa using hp

/-- `leadCount` is determined by the indexed characters. -/
theorem leadCount_eq {p : Char → Bool} {s : List Char} {k : ℕ}
    (h1 : ∀ i, i < k → charAt p s i = true) (h2 : charAt p s k = false) :
    leadCount p s = k := by
  induction s generalizing k with
  | nil =>
      cases k with
      | zero => rfl
      | succ j =>
          have h0 := h1 0 (by omega)
          unfold charAt at h0
          simp [List.get?] at h0
  | cons c t ih =>
      cases k with
      | zero =>
          unfold charAt at h2
          rw [List.get?_cons_zero] at h2
          have h2' : p c = false := h2
          simp [leadCount, h2']
      | succ j =>
          have hc : p c = true := by
            have h0 := h1 0 (by omega)
            unfold charAt at h0
            rwa [List.get?_cons_zero] at h0
          simp only [leadCount, if_pos hc]
          congr 1
          apply ih
          · intro i hi
            have hx := h1 (i + 1) (by omega)
            unfold charAt at hx ⊢
            rwa [List.get?_cons_succ] at hx
          · unfold charAt at h2 ⊢
            rwa [List.get?_cons_succ] at h2

theorem le_leadCount {p : Char → Bool} {s : List Char} {k : ℕ}
    (h1 : ∀ i, i < k → charAt p s i = true) : k ≤ leadCount p s := by
  by_contra h
  push_neg at h
  have := h1 (leadCount p s) h
  rw [leadCount_at] at this
  cases this

theorem digitsFrom_some {k : ℕ} {s : List Char} {j e : ℕ}
    (h : digitsFrom k s j = some e) :
    e = j + k ∧ ∀ x, x < k → isDigitAt s (j + x) = true := by
  unfold digitsFrom at h
  split at h
  · next hall =>
      refine ⟨(Option.some.inj h).symm, fun x hx => ?_⟩
      rw [List.all_eq_true] at hall
      exact hall x (List.mem_range.mpr hx)
  · cases h

theorem digitsFrom_of_digits {k : ℕ} {s : List Char} {j : ℕ}
    (h : ∀ x, x < k → isDigitAt s (j + x) = true) : digitsFrom k s j = some (j + k) := by
  unfold digitsFrom
  rw [if_pos]
  rw [List.all_eq_true]
  intro x hx
  exact h x (List.mem_range.mp hx)

theorem optChar_le {p : Char → Bool} (s : List Char) (j : ℕ) :
    j ≤ optChar p s j ∧ optChar p s j ≤ j + 1 := by
  unfold optChar
  split <;> omega

theorem optChar_congr {p : Char → Bool} {s t : List Char} {j : ℕ}
    (h : s.get? j = t.get? j) : optChar p s j = optChar p t j := by
  unfold optChar
  rw [charAt_congr h]

theorem optChar_adv {p : Char → Bool} {s : List Char} {j : ℕ}
    (h : optChar p s j ≠ j) : optChar p s j = j + 1 ∧ charAt p s j = true := by
  unfold optChar at h ⊢
  split at h
  · next hc => simp [hc]
  · omega

/-- The property bundle each detector matcher satisfies; everything the
scan-level argument needs. -/
structure MOK (m : Matcher) : Prop where
  one_le : ∀ prev s n, m prev s = some n → 1 ≤ n
  last_some : ∀ prev s n, m prev s = some n → s.get? (n - 1) ≠ none
  no_angle : ∀ prev s n, m prev s = some n → ∀ i, i < n →
    s.get? i ≠ some '<' ∧ s.get? i ≠ some '>'
  end_bdry : ∀ prev s n, m prev s = some n → bdry (s.get? (n - 1)) (s.get? n) = true
  start_bdry : ∀ prev s n, m prev s = some n → bdry prev (s.get? 0) = true
  prev_word : ∀ prev prev' s, isWordOpt prev = isWordOpt prev' → m prev s = m prev' s
  transfer : ∀ prev s t n, m prev s = some n → (∀ i, i < n → s.get? i = t.get? i) →
    isWordOpt (s.get? n) = isWordOpt (t.get? n) → m prev t ≠ none
  ph_start : ∀ prev w rest, (∀ c ∈ w, c.isUpper = true ∨ c = '_') →
    m prev (w ++ '>' :: rest) = none

/-- No matcher matches the empty suffix. -/
theorem MOK.nil {m : Matcher} (hm : MOK m) (prev : Option Char) : m prev [] = none := by
  cases hme : m prev [] with
  | none => rfl
  | some n =>
      have := hm.last_some prev [] n hme
      simp [List.get?] at this

/-- No matcher matches starting at a `<`. -/
theorem MOK.at_angle {m : Matcher} (hm : MOK m) (prev : Option Char) (rest : List Char) :
    m prev ('<' :: rest) = none := by
  cases hme : m prev ('<' :: rest) with
  | none => rfl
  | some n =>
      have h1 := hm.one_le prev _ n hme
      have h2 := (hm.no_angle prev _ n hme 0 (by omega)).1
      simp [List.get?] at h2

/-- Match length is bounded by the suffix length. -/
theorem MOK.le_length {m : Matcher} (hm : MOK m) {prev : Option Char} {s : List Char}
    {n : ℕ} (h : m prev s = some n) : n ≤ s.length := by
  have h1 := hm.one_le prev s n h
  have h2 := hm.last_some prev s n h
  by_contra hc
  push_neg at hc
  rw [List.get?_eq_none.mpr (by omega)] at h2
  exact h2 rfl

theorem char_le_nat {a b : Char} (h : a ≤ b) : a.val.toNat ≤ b.val.toNat :=
  Char.le_def.mp h

theorem ne_of_pred {p : Char → Bool} {c x : Char} (h : p c = true) (hx : p x = false) :
    c ≠ x := by
  intro he
  subst he
  rw [h] at hx
  cases hx

theorem upper_not_digit {c : Char} (h : c.isUpper = true) : c.isDigit = false := by
  simp only [Char.isUpper, Bool.and_eq_true, decide_eq_true_eq] at h
  have g1 : (65 : UInt32).toNat ≤ c.val.toNat := h.1
  unfold Char.isDigit
  rw [Bool.and_eq_false_iff]
  right
  rw [decide_eq_false_iff_not]
  intro h2
  have g2 : c.val.toNat ≤ (57 : UInt32).toNat := h2
  have e1 : (65 : UInt32).toNat = 65 := rfl
  have e2 : (57 : UInt32).toNat = 57 := rfl
  omega

theorem upper_not_space {c : Char} (h : c.isUpper = true) : isPySpace c = false := by
  cases hs : isPySpace c with
  | false => rfl
  | true =>
      simp only [isPySpace, Bool.or_eq_true, decide_eq_true_eq] at hs
      rcases hs with ((((rfl | rfl) | rfl) | rfl) | rfl) | rfl <;>
        exact absurd h (by decide)

/-- The facts about a placeholder body character (an upper-case letter
or an underscore) needed by the per-matcher placeholder lemmas. -/
theorem phBody_facts {c : Char} (h : c.isUpper = true ∨ c = '_') :
    c.isDigit = false ∧ c ≠ '+' ∧ c ≠ '1' ∧ c ≠ '(' ∧ isPySpace c = false ∧
    isLClass c = true ∧ isWordChar c = true := by
  rcases h with h | rfl
  · refine ⟨upper_not_digit h, ?_, ?_, ?_, upper_not_space h, ?_, ?_⟩
    · exact ne_of_pred h (by decide)
    · exact ne_of_pred h (by decide)
    · exact ne_of_pred h (by decide)
    · simp [isLClass, Char.isAlpha, h]
    · simp [isWordChar, Char.isAlpha, h]
  · refine ⟨by decide, by decide, by decide, by decide, by decide, by decide, by decide⟩

theorem charAt_ne_angle {p : Char → Bool} {s : List Char} {i : ℕ}
    (h : charAt p s i = true) (h1 : p '<' = false) (h2 : p '>' = false) :
    s.get? i ≠ some '<' ∧ s.get? i ≠ some '>' := by
  obtain ⟨c, hg, hp⟩ := charAt_eq_true h
  rw [hg]
  constructor <;> intro he <;> injection he with he <;> subst he
  · rw [hp] at h1; cases h1
  · rw [hp] at h2; cases h2

theorem digitAt_ne_angle {s : List Char} {i : ℕ} (h : isDigitAt s i = true) :
    s.get? i ≠ some '<' ∧ s.get? i ≠ some '>' := by
  obtain ⟨c, hg, hp⟩ := isDigitAt_eq_true h
  exact charAt_ne_angle (p := Char.isDigit) (charAt_of_get hg hp) (by decide) (by decide)

theorem isWordOpt_of_digitAt {s : List Char} {i : ℕ} (h : isDigitAt s i = true) :
    isWordOpt (s.get? i) = true := by
  obtain ⟨c, hg, hp⟩ := isDigitAt_eq_true h
  rw [hg]
  exact isWordChar_of_isDigit hp

/-! ### MOK for the SSN matcher -/

theorem ssnAt_some {prev : Option Char} {s : List Char} {n : ℕ}
    (h : ssnAt prev s = some n) :
    n = 11 ∧ bdry prev (s.get? 0) = true ∧
    isDigitAt s 0 = true ∧ isDigitAt s 1 = true ∧ isDigitAt s 2 = true ∧
    charAt (· = '-') s 3 = true ∧ isDigitAt s 4 = true ∧ isDigitAt s 5 = true ∧
    charAt (· = '-') s 6 = true ∧ isDigitAt s 7 = true ∧ isDigitAt s 8 = true ∧
    isDigitAt s 9 = true ∧ isDigitAt s 10 = true ∧ bdry (s.get? 10) (s.get? 11) = true := by
  unfold ssnAt at h
  split at h
  · next hc =>
      simp only [Bool.and_eq_true] at hc
      exact ⟨(Option.some.inj h).symm, by tauto, by tauto, by tauto, by tauto, by tauto,
        by tauto, by tauto, by tauto, by tauto, by tauto, by tauto, by tauto, by tauto⟩
  · cases h

theorem ssnAt_mk {prev : Option Char} {s : List Char}
    (h1 : bdry prev (s.get? 0) = true)
    (h2 : isDigitAt s 0 = true) (h3 : isDigitAt s 1 = true) (h4 : isDigitAt s 2 = true)
    (h5 : charAt (· = '-') s 3 = true) (h6 : isDigitAt s 4 = true)
    (h7 : isDigitAt s 5 = true) (h8 : charAt (· = '-') s 6 = true)
    (h9 : isDigitAt s 7 = true) (h10 : isDigitAt s 8 = true) (h11 : isDigitAt s 9 = true)
    (h12 : isDigitAt s 10 = true) (h13 : bdry (s.get? 10) (s.get? 11) = true) :
    ssnAt prev s = some 11 := by
  unfold ssnAt
  rw [if_pos]
  simp only [Bool.and_eq_true]
  tauto

theorem ssnAt_MOK : MOK ssnAt := by
  constructor
  · intro prev s n h
    rw [(ssnAt_some h).1]
    omega
  · intro prev s n h
    obtain ⟨hn, hf⟩ := ssnAt_some h
    subst hn
    obtain ⟨c, hg, -⟩ := isDigitAt_eq_true hf.2.2.2.2.2.2.2.2.2.2.2.1
    rw [hg]
    simp
  · intro prev s n h i hi
    obtain ⟨hn, -, d0, d1, d2, m3, d4, d5, m6, d7, d8, d9, d10, -⟩ := ssnAt_some h
    subst hn
    interval_cases i
    · exact digitAt_ne_angle d0
    · exact digitAt_ne_angle d1
    · exact digitAt_ne_angle d2
    · exact charAt_ne_angle m3 (by decide) (by decide)
    · exact digitAt_ne_angle d4
    · exact digitAt_ne_angle d5
    · exact charAt_ne_angle m6 (by decide) (by decide)
    · exact digitAt_ne_angle d7
    · exact digitAt_ne_angle d8
    · exact digitAt_ne_angle d9
    · exact digitAt_ne_angle d10
  · intro prev s n h
    obtain ⟨hn, hf⟩ := ssnAt_some h
    subst hn
    exact hf.2.2.2.2.2.2.2.2.2.2.2.2
  · intro prev s n h
    exact (ssnAt_some h).2.1
  · intro prev prev' s h
    unfold ssnAt
    rw [bdry_congr h rfl]
  · intro prev s t n h hag hw
    obtain ⟨hn, hb, d0, d1, d2, m3, d4, d5, m6, d7, d8, d9, d10, he⟩ := ssnAt_some h
    subst hn
    have hmk := @ssnAt_mk prev t
      (by rwa [← hag 0 (by omega)])
      (by rwa [← isDigitAt_congr (hag 0 (by omega))])
      (by rwa [← isDigitAt_congr (hag 1 (by omega))])
      (by rwa [← isDigitAt_congr (hag 2 (by omega))])
      (by rwa [← charAt_congr (hag 3 (by omega))])
      (by rwa [← isDigitAt_congr (hag 4 (by omega))])
      (by rwa [← isDigitAt_congr (hag 5 (by omega))])
      (by rwa [← charAt_congr (hag 6 (by omega))])
      (by rwa [← isDigitAt_congr (hag 7 (by omega))])
      (by rwa [← isDigitAt_congr (hag 8 (by omega))])
      (by rwa [← isDigitAt_congr (hag 9 (by omega))])
      (by rwa [← isDigitAt_congr (hag 10 (by omega))])
      (by
        rw [bdry_congr2 _ (s.get? 10) _ (s.get? 11) (by rw [← hag 10 (by omega)])
          hw.symm]
        exact he)
    rw [hmk]
    simp
  · intro prev w rest hw
    have hd : isDigitAt (w ++ '>' :: rest) 0 = false := by
      cases w with
      | nil =>
          unfold isDigitAt
          rw [List.nil_append, List.get?_cons_zero]
          decide
      | cons c w' =>
          unfold isDigitAt
          rw [List.cons_append, List.get?_cons_zero]
          exact (phBody_facts (by simpa using hw c (by simp))).1
    unfold ssnAt
    rw [if_neg]
    intro hc
    simp only [Bool.and_eq_true] at hc
    rw [hd] at hc
    tauto

/-! ### MOK for the credit-card matcher -/

/-- Characters a credit-card match can consume. -/
def ccClass (c : Char) : Bool := c.isDigit || isPySpace c || c = '-'

theorem ccGroups_base {s : List Char} {j e : ℕ} (h : ccGroups s j 0 = some e) :
    e = j ∧ bdry (s.get? (j - 1)) (s.get? j) = true := by
  unfold ccGroups at h
  split at h
  · exact ⟨(Option.some.inj h).symm, by assumption⟩
  · cases h

theorem ccGroups_lb {s : List Char} :
    ∀ g j e, ccGroups s j (g + 1) = some e → j + 4 ≤ e := by
  intro g
  induction g with
  | zero =>
      intro j e h
      unfold ccGroups at h
      cases hd : digitsFrom 4 s j with
      | none => rw [hd] at h; cases h
      | some j' =>
          rw [hd, Option.some_bind, if_pos rfl] at h
          obtain ⟨he, -⟩ := ccGroups_base h
          obtain ⟨hj', -⟩ := digitsFrom_some hd
          omega
  | succ g ih =>
      intro j e h
      unfold ccGroups at h
      cases hd : digitsFrom 4 s j with
      | none => rw [hd] at h; cases h
      | some j' =>
          rw [hd, Option.some_bind, if_neg (Nat.succ_ne_zero g)] at h
          have hb := ih _ _ h
          obtain ⟨hj', -⟩ := digitsFrom_some hd
          have ho := optChar_le (p := fun c => isPySpace c || c = '-') s j'
          omega

theorem ccGroups_facts {s : List Char} :
    ∀ g j e, ccGroups s j (g + 1) = some e →
      isDigitAt s (e - 1) = true ∧ bdry (s.get? (e - 1)) (s.get? e) = true ∧
      ∀ i, j ≤ i → i < e → charAt ccClass s i = true := by
  intro g
  induction g with
  | zero =>
      intro j e h
      unfold ccGroups at h
      cases hd : digitsFrom 4 s j with
      | none => rw [hd] at h; cases h
      | some j' =>
          rw [hd, Option.some_bind, if_pos rfl] at h
          obtain ⟨he, hbd⟩ := ccGroups_base h
          obtain ⟨hj', hdig⟩ := digitsFrom_some hd
          subst hj'
          subst he
          refine ⟨?_, hbd, ?_⟩
          · have h3 := hdig 3 (by omega)
            rwa [show j + 3 = j + 4 - 1 by omega] at h3
          · intro i hi1 hi2
            obtain ⟨c, hg, hc⟩ := isDigitAt_eq_true (hdig (i - j) (by omega))
            rw [show j + (i - j) = i by omega] at hg
            exact charAt_of_get hg (by simp [ccClass, hc])
  | succ g ih =>
      intro j e h
      unfold ccGroups at h
      cases hd : digitsFrom 4 s j with
      | none => rw [hd] at h; cases h
      | some j' =>
          rw [hd, Option.some_bind, if_neg (Nat.succ_ne_zero g)] at h
          obtain ⟨hj', hdig⟩ := digitsFrom_some hd
          subst hj'
          obtain ⟨f1, f2, f3⟩ := ih _ _ h
          have hlb := ccGroups_lb _ _ _ h
          have ho := optChar_le (p := fun c => isPySpace c || c = '-') s (j + 4)
          refine ⟨f1, f2, ?_⟩
          intro i hi1 hi2
          by_cases hcase : optChar (fun c => isPySpace c || c = '-') s (j + 4) ≤ i
          · exact f3 i hcase hi2
          · push_neg at hcase
            by_cases hi4 : i < j + 4
            · obtain ⟨c, hg, hc⟩ := isDigitAt_eq_true (hdig (i - j) (by omega))
              rw [show j + (i - j) = i by omega] at hg
              exact charAt_of_get hg (by simp [ccClass, hc])
            · have hi' : i = j + 4 := by omega
              have hadv : optChar (fun c => isPySpace c || c = '-') s (j + 4) ≠ j + 4 := by
                omega
              obtain ⟨-, hsep⟩ := optChar_adv hadv
              obtain ⟨c, hg, hc⟩ := charAt_eq_true hsep
              subst hi'
              refine charAt_of_get hg ?_
              rw [Bool.or_eq_true] at hc
              rcases hc with hc | hc
              · simp [ccClass, hc]
              · rw [decide_eq_true_eq] at hc
                subst hc
                decide

theorem ccGroups_congr {s t : List Char} :
    ∀ g j e, ccGroups s j g = some e → (∀ i, i < e → s.get? i = t.get? i) →
      isWordOpt (s.get? e) = isWordOpt (t.get? e) → (g = 0 → 1 ≤ j) →
      ccGroups t j g = some e := by
  intro g
  induction g with
  | zero =>
      intro j e h hag hw hj
      obtain ⟨he, hbd⟩ := ccGroups_base h
      subst he
      have h1 : 1 ≤ e := hj rfl
      unfold ccGroups
      have hb' : bdry (t.get? (e - 1)) (t.get? e) = true := by
        rw [bdry_congr2 _ (s.get? (e - 1)) _ (s.get? e)
          (by rw [← hag (e - 1) (by omega)]) hw.symm]
        exact hbd
      rw [if_pos hb']
  | succ g ih =>
      intro j e h hag hw hj
      unfold ccGroups at h ⊢
      cases hd : digitsFrom 4 s j with
      | none => rw [hd] at h; cases h
      | some j' =>
          rw [hd, Option.some_bind] at h
          obtain ⟨hj', hdig⟩ := digitsFrom_some hd
          subst hj'
          have hlb : j + 4 ≤ e := by
            by_cases hg0 : g = 0
            · subst hg0
              rw [if_pos rfl] at h
              obtain ⟨he, -⟩ := ccGroups_base h
              omega
            · rw [if_neg hg0] at h
              obtain ⟨g', rfl⟩ := Nat.exists_eq_succ_of_ne_zero hg0
              have hx := ccGroups_lb _ _ _ h
              have ho := optChar_le (p := fun c => isPySpace c || c = '-') s (j + 4)
              omega
          have hdt : digitsFrom 4 t j = some (j + 4) := by
            rw [digitsFrom_of_digits]
            intro x hx
            rw [← isDigitAt_congr (hag (j + x) (by omega))]
            exact hdig x hx
          rw [hdt, Option.some_bind]
          by_cases hg0 : g = 0
          · subst hg0
            rw [if_pos rfl] at h ⊢
            exact ih _ _ h hag hw (fun _ => by omega)
          · rw [if_neg hg0] at h ⊢
            obtain ⟨g', rfl⟩ := Nat.exists_eq_succ_of_ne_zero hg0
            have hx := ccGroups_lb _ _ _ h
            have ho := optChar_le (p := fun c => isPySpace c || c = '-') s (j + 4)
            rw [← optChar_congr (p := fun c => isPySpace c || c = '-')
              (hag (j + 4) (by omega))]
            exact ih _ _ h hag hw (fun hc => absurd hc (Nat.succ_ne_zero g'))

theorem ccAt_some {prev : Option Char} {s : List Char} {n : ℕ}
    (h : ccAt prev s = some n) :
    bdry prev (s.get? 0) = true ∧ ccGroups s 0 4 = some n := by
  unfold ccAt at h
  split at h
  · exact ⟨by assumption, h⟩
  · cases h

theorem ccAt_MOK : MOK ccAt := by
  constructor
  · intro prev s n h
    have := ccGroups_lb _ _ _ (ccAt_some h).2
    omega
  · intro prev s n h
    obtain ⟨f1, -, -⟩ := ccGroups_facts _ _ _ (ccAt_some h).2
    obtain ⟨c, hg, -⟩ := isDigitAt_eq_true f1
    rw [hg]
    simp
  · intro prev s n h i hi
    obtain ⟨-, -, f3⟩ := ccGroups_facts _ _ _ (ccAt_some h).2
    exact charAt_ne_angle (f3 i (by omega) hi) (by decide) (by decide)
  · intro prev s n h
    exact (ccGroups_facts _ _ _ (ccAt_some h).2).2.1
  · intro prev s n h
    exact (ccAt_some h).1
  · intro prev prev' s h
    unfold ccAt
    rw [bdry_congr h rfl]
  · intro prev s t n h hag hw
    obtain ⟨hb, hgr⟩ := ccAt_some h
    have hn4 := ccGroups_lb _ _ _ hgr
    unfold ccAt
    rw [bdry_congr2 _ (prev) _ (s.get? 0) rfl (by rw [← hag 0 (by omega)]),
      if_pos hb, ccGroups_congr _ _ _ hgr hag hw (by omega)]
    simp
  · intro prev w rest hw
    have hd : isDigitAt (w ++ '>' :: rest) 0 = false := by
      cases w with
      | nil =>
          unfold isDigitAt
          rw [List.nil_append, List.get?_cons_zero]
          decide
      | cons c w' =>
          unfold isDigitAt
          rw [List.cons_append, List.get?_cons_zero]
          exact (phBody_facts (by simpa using hw c (by simp))).1
    have hdf : digitsFrom 4 (w ++ '>' :: rest) 0 = none := by
      unfold digitsFrom
      rw [if_neg]
      intro hall
      rw [List.all_eq_true] at hall
      have := hall 0 (by decide)
      rw [show (0 : ℕ) + 0 = 0 from rfl, hd] at this
      cases this
    unfold ccAt
    split
    · show ccGroups _ 0 4 = none
      unfold ccGroups
      rw [hdf]
      rfl
    · rfl

/-! ### MOK for the IP matcher -/

/-- Characters an IP match can consume. -/
def ipClass (c : Char) : Bool := c.isDigit || c = '.'

theorem bdry_word_right {a b : Option Char} (h : bdry a b = true)
    (ha : isWordOpt a = true) : isWordOpt b = false := by
  unfold bdry at h
  rw [ha] at h
  cases hb : isWordOpt b
  · rfl
  · rw [hb] at h
    exact absurd h (by decide)

theorem ite_cond_false {α : Type} (a b : α) : (if false = true then a else b) = b := rfl

theorem ite_self_eq {α : Type} {β : Type} [DecidableEq β] (x : β) (a b : α) :
    (if x = x then a else b) = a := if_pos rfl

theorem ite_one_ne {α : Type} (a b : α) : (if (1 : ℕ) = 0 then a else b) = b := rfl

theorem ite_two_ne {α : Type} (a b : α) : (if (2 : ℕ) = 0 then a else b) = b := rfl

theorem ite_three_ne {α : Type} (a b : α) : (if (3 : ℕ) = 0 then a else b) = b := rfl

theorem ipOctetDot_iff {s : List Char} {j e : ℕ} :
    ipOctetDot s j = some e ↔ ∃ r, 1 ≤ r ∧ r ≤ 3 ∧ e = j + r + 1 ∧
      (∀ x, x < r → isDigitAt s (j + x) = true) ∧ isDigitAt s (j + r) = false ∧
      s.get? (j + r) = some '.' := by
  constructor
  · intro h
    cases h0 : isDigitAt s j
    · simp only [ipOctetDot, h0, ite_cond_false, ite_self_eq, ite_one_ne, ite_two_ne, ite_three_ne, if_true, if_false, Bool.false_eq_true] at h
      cases h
    · cases h1 : isDigitAt s (j + 1)
      · simp only [ipOctetDot, h0, h1, ite_cond_false, ite_self_eq, ite_one_ne, ite_two_ne, ite_three_ne, if_true, if_false, Bool.false_eq_true] at h
        split at h
        · next hdot =>
            injection h with he
            refine ⟨1, by omega, by omega, by omega, ?_, by simpa using h1, hdot⟩
            intro x hx
            interval_cases x
            simpa using h0
        · cases h
      · cases h2 : isDigitAt s (j + 2)
        · simp only [ipOctetDot, h0, h1, h2, ite_cond_false, ite_self_eq, ite_one_ne, ite_two_ne, ite_three_ne, if_true, if_false, Bool.false_eq_true] at h
          split at h
          · next hdot =>
              injection h with he
              refine ⟨2, by omega, by omega, by omega, ?_, by simpa using h2, hdot⟩
              intro x hx
              interval_cases x
              · simpa using h0
              · exact h1
          · cases h
        · simp only [ipOctetDot, h0, h1, h2, ite_cond_false, ite_self_eq, ite_one_ne, ite_two_ne, ite_three_ne, if_true, if_false, Bool.false_eq_true] at h
          split at h
          · cases h
          · next hd3 =>
              split at h
              · next hdot =>
                  injection h with he
                  refine ⟨3, by omega, by omega, by omega, ?_, by simpa using hd3, hdot⟩
                  intro x hx
                  interval_cases x
                  · simpa using h0
                  · exact h1
                  · exact h2
              · cases h
  · rintro ⟨r, hr1, hr3, he, hdig, hnd, hdot⟩
    interval_cases r
    · have h0 : isDigitAt s j = true := by simpa using hdig 0 (by omega)
      simp only [ipOctetDot, h0, hnd, hdot, ite_cond_false, ite_self_eq, ite_one_ne, ite_two_ne, ite_three_ne, if_true, if_false, Bool.false_eq_true]
      rw [he]
    · have h0 : isDigitAt s j = true := by simpa using hdig 0 (by omega)
      have h1 : isDigitAt s (j + 1) = true := hdig 1 (by omega)
      simp only [ipOctetDot, h0, h1, hnd, hdot, ite_cond_false, ite_self_eq, ite_one_ne, ite_two_ne, ite_three_ne, if_true, if_false, Bool.false_eq_true]
      rw [he]
    · have h0 : isDigitAt s j = true := by simpa using hdig 0 (by omega)
      have h1 : isDigitAt s (j + 1) = true := hdig 1 (by omega)
      have h2 : isDigitAt s (j + 2) = true := hdig 2 (by omega)
      simp only [ipOctetDot, h0, h1, h2, hnd, hdot, ite_cond_false, ite_self_eq, ite_one_ne, ite_two_ne, ite_three_ne, if_true, if_false, Bool.false_eq_true]
      rw [he]

theorem ipFinal_iff {s : List Char} {j e : ℕ} :
    ipFinal s j = some e ↔ ∃ r, 1 ≤ r ∧ r ≤ 3 ∧ e = j + r ∧
      (∀ x, x < r → isDigitAt s (j + x) = true) ∧ isDigitAt s (j + r) = false ∧
      bdry (s.get? (j + r - 1)) (s.get? (j + r)) = true := by
  constructor
  · intro h
    cases h0 : isDigitAt s j
    · simp only [ipFinal, h0, ite_cond_false, ite_self_eq, ite_one_ne, ite_two_ne, ite_three_ne, if_true, if_false, Bool.false_eq_true] at h
      cases h
    · cases h1 : isDigitAt s (j + 1)
      · simp only [ipFinal, h0, h1, ite_cond_false, ite_self_eq, ite_one_ne, ite_two_ne, ite_three_ne, if_true, if_false, Bool.false_eq_true] at h
        split at h
        · next hbd =>
            injection h with he
            refine ⟨1, by omega, by omega, by omega, ?_, by simpa using h1, hbd⟩
            intro x hx
            interval_cases x
            simpa using h0
        · cases h
      · cases h2 : isDigitAt s (j + 2)
        · simp only [ipFinal, h0, h1, h2, ite_cond_false, ite_self_eq, ite_one_ne, ite_two_ne, ite_three_ne, if_true, if_false, Bool.false_eq_true] at h
          split at h
          · next hbd =>
              injection h with he
              refine ⟨2, by omega, by omega, by omega, ?_, by simpa using h2, hbd⟩
              intro x hx
              interval_cases x
              · simpa using h0
              · exact h1
          · cases h
        · simp only [ipFinal, h0, h1, h2, ite_cond_false, ite_self_eq, ite_one_ne, ite_two_ne, ite_three_ne, if_true, if_false, Bool.false_eq_true] at h
          split at h
          · cases h
          · next hd3 =>
              split at h
              · next hbd =>
                  injection h with he
                  refine ⟨3, by omega, by omega, by omega, ?_, by simpa using hd3, hbd⟩
                  intro x hx
                  interval_cases x
                  · simpa using h0
                  · exact h1
                  · exact h2
              · cases h
  · rintro ⟨r, hr1, hr3, he, hdig, hnd, hbd⟩
    interval_cases r
    · have h0 : isDigitAt s j = true := by simpa using hdig 0 (by omega)
      simp only [ipFinal, h0, hnd, hbd, ite_cond_false, ite_self_eq, ite_one_ne, ite_two_ne, ite_three_ne, if_true, if_false, Bool.false_eq_true]
      rw [he]
    · have h0 : isDigitAt s j = true := by simpa using hdig 0 (by omega)
      have h1 : isDigitAt s (j + 1) = true := hdig 1 (by omega)
      simp only [ipFinal, h0, h1, hnd, hbd, ite_cond_false, ite_self_eq, ite_one_ne, ite_two_ne, ite_three_ne, if_true, if_false, Bool.false_eq_true]
      rw [he]
    · have h0 : isDigitAt s j = true := by simpa using hdig 0 (by omega)
      have h1 : isDigitAt s (j + 1) = true := hdig 1 (by omega)
      have h2 : isDigitAt s (j + 2) = true := hdig 2 (by omega)
      simp only [ipFinal, h0, h1, h2, hnd, hbd, ite_cond_false, ite_self_eq, ite_one_ne, ite_two_ne, ite_three_ne, if_true, if_false, Bool.false_eq_true]
      rw [he]

theorem ipOctetDot_facts {s : List Char} {j e : ℕ} (h : ipOctetDot s j = some e) :
    j + 2 ≤ e ∧ e ≤ j + 4 ∧ (∀ i, j ≤ i → i < e → charAt ipClass s i = true) ∧
    s.get? (e - 1) = some '.' := by
  obtain ⟨r, hr1, hr3, he, hdig, hnd, hdot⟩ := ipOctetDot_iff.mp h
  subst he
  refine ⟨by omega, by omega, ?_, ?_⟩
  · intro i hi1 hi2
    by_cases hc : i < j + r
    · obtain ⟨c, hg, hc'⟩ := isDigitAt_eq_true (hdig (i - j) (by omega))
      rw [show j + (i - j) = i by omega] at hg
      exact charAt_of_get hg (by simp [ipClass, hc'])
    · have hje : i = j + r := by omega
      subst hje
      exact charAt_of_get hdot (by decide)
  · rw [show j + r + 1 - 1 = j + r by omega]
    exact hdot

theorem ipOctetDot_congr {s t : List Char} {j e : ℕ} (h : ipOctetDot s j = some e)
    (hag : ∀ i, i < e → s.get? i = t.get? i) : ipOctetDot t j = some e := by
  obtain ⟨r, hr1, hr3, he, hdig, hnd, hdot⟩ := ipOctetDot_iff.mp h
  refine ipOctetDot_iff.mpr ⟨r, hr1, hr3, he, ?_, ?_, ?_⟩
  · intro x hx
    rw [← isDigitAt_congr (hag (j + x) (by omega))]
    exact hdig x hx
  · rw [← isDigitAt_congr (hag (j + r) (by omega))]
    exact hnd
  · rw [← hag (j + r) (by omega)]
    exact hdot

theorem ipFinal_facts {s : List Char} {j e : ℕ} (h : ipFinal s j = some e) :
    j + 1 ≤ e ∧ e ≤ j + 3 ∧ (∀ i, j ≤ i → i < e → charAt ipClass s i = true) ∧
    isDigitAt s (e - 1) = true ∧ bdry (s.get? (e - 1)) (s.get? e) = true := by
  obtain ⟨r, hr1, hr3, he, hdig, hnd, hbd⟩ := ipFinal_iff.mp h
  subst he
  refine ⟨by omega, by omega, ?_, ?_, hbd⟩
  · intro i hi1 hi2
    obtain ⟨c, hg, hc'⟩ := isDigitAt_eq_true (hdig (i - j) (by omega))
    rw [show j + (i - j) = i by omega] at hg
    exact charAt_of_get hg (by simp [ipClass, hc'])
  · rw [show j + r - 1 = j + (r - 1) by omega]
    exact hdig (r - 1) (by omega)

theorem ipFinal_congr {s t : List Char} {j e : ℕ} (h : ipFinal s j = some e)
    (hag : ∀ i, i < e → s.get? i = t.get? i)
    (hw : isWordOpt (s.get? e) = isWordOpt (t.get? e)) : ipFinal t j = some e := by
  obtain ⟨r, hr1, hr3, he, hdig, hnd, hbd⟩ := ipFinal_iff.mp h
  have hword : isWordOpt (s.get? (j + r - 1)) = true := by
    apply isWordOpt_of_digitAt
    rw [show j + r - 1 = j + (r - 1) by omega]
    exact hdig (r - 1) (by omega)
  have hnw : isWordOpt (s.get? (j + r)) = false := bdry_word_right hbd hword
  refine ipFinal_iff.mpr ⟨r, hr1, hr3, he, ?_, ?_, ?_⟩
  · intro x hx
    rw [← isDigitAt_congr (hag (j + x) (by omega))]
    exact hdig x hx
  · apply isDigitAt_false_of_not_word
    rw [show j + r = e from he.symm, ← hw, he]
    exact hnw
  · rw [bdry_congr2 _ (s.get? (j + r - 1)) _ (s.get? (j + r))
      (by rw [← hag (j + r - 1) (by omega)])
      (by rw [show j + r = e from he.symm, ← hw])]
    exact hbd

theorem ipAt_some {prev : Option Char} {s : List Char} {n : ℕ} (h : ipAt prev s = some n) :
    bdry prev (s.get? 0) = true ∧ ∃ j1 j2 j3, ipOctetDot s 0 = some j1 ∧
      ipOctetDot s j1 = some j2 ∧ ipOctetDot s j2 = some j3 ∧ ipFinal s j3 = some n := by
  unfold ipAt at h
  split at h
  · next hb =>
      cases h1 : ipOctetDot s 0 with
      | none => rw [h1] at h; cases h
      | some j1 =>
          rw [h1, Option.some_bind] at h
          cases h2 : ipOctetDot s j1 with
          | none => rw [h2] at h; cases h
          | some j2 =>
              rw [h2, Option.some_bind] at h
              cases h3 : ipOctetDot s j2 with
              | none => rw [h3] at h; cases h
              | some j3 =>
                  rw [h3, Option.some_bind] at h
                  exact ⟨hb, j1, j2, j3, rfl, h2, h3, h⟩
  · cases h

theorem ipAt_MOK : MOK ipAt := by
  constructor
  · intro prev s n h
    obtain ⟨-, j1, j2, j3, o1, o2, o3, hf⟩ := ipAt_some h
    have b4 := (ipFinal_facts hf).1
    omega
  · intro prev s n h
    obtain ⟨-, j1, j2, j3, o1, o2, o3, hf⟩ := ipAt_some h
    obtain ⟨c, hg, -⟩ := isDigitAt_eq_true (ipFinal_facts hf).2.2.2.1
    rw [hg]
    simp
  · intro prev s n h i hi
    obtain ⟨-, j1, j2, j3, o1, o2, o3, hf⟩ := ipAt_some h
    obtain ⟨a1, a1', c1, -⟩ := ipOctetDot_facts o1
    obtain ⟨a2, a2', c2, -⟩ := ipOctetDot_facts o2
    obtain ⟨a3, a3', c3, -⟩ := ipOctetDot_facts o3
    obtain ⟨a4, a4', c4, -, -⟩ := ipFinal_facts hf
    have hcl : charAt ipClass s i = true := by
      by_cases h1 : i < j1
      · exact c1 i (by omega) h1
      · by_cases h2 : i < j2
        · exact c2 i (by omega) h2
        · by_cases h3 : i < j3
          · exact c3 i (by omega) h3
          · exact c4 i (by omega) hi
    exact charAt_ne_angle hcl (by decide) (by decide)
  · intro prev s n h
    obtain ⟨-, j1, j2, j3, o1, o2, o3, hf⟩ := ipAt_some h
    exact (ipFinal_facts hf).2.2.2.2
  · intro prev s n h
    exact (ipAt_some h).1
  · intro prev prev' s h
    unfold ipAt
    rw [bdry_congr h rfl]
  · intro prev s t n h hag hw
    obtain ⟨hb, j1, j2, j3, o1, o2, o3, hf⟩ := ipAt_some h
    have a1 := (ipOctetDot_facts o1).1
    have a2 := (ipOctetDot_facts o2).1
    have a3 := (ipOctetDot_facts o3).1
    have a4 := (ipFinal_facts hf).1
    unfold ipAt
    rw [bdry_congr2 _ (prev) _ (s.get? 0) rfl (by rw [← hag 0 (by omega)]),
      if_pos hb]
    rw [ipOctetDot_congr o1 (fun i hi => hag i (by omega)), Option.some_bind]
    rw [ipOctetDot_congr o2 (fun i hi => hag i (by omega)), Option.some_bind]
    rw [ipOctetDot_congr o3 (fun i hi => hag i (by omega)), Option.some_bind]
    rw [ipFinal_congr hf hag hw]
    simp
  · intro prev w rest hw
    have hd : isDigitAt (w ++ '>' :: rest) 0 = false := by
      cases w with
      | nil =>
          unfold isDigitAt
          rw [List.nil_append, List.get?_cons_zero]
          decide
      | cons c w' =>
          unfold isDigitAt
          rw [List.cons_append, List.get?_cons_zero]
          exact (phBody_facts (by simpa using hw c (by simp))).1
    have ho : ipOctetDot (w ++ '>' :: rest) 0 = none := by
      simp only [ipOctetDot, hd, ite_cond_false, ite_self_eq, ite_one_ne, ite_two_ne,
        ite_three_ne, if_true, if_false, Bool.false_eq_true]
    unfold ipAt
    split
    · rw [ho]
      rfl
    · rfl

/-! ### MOK for the phone matcher -/

/-- Characters the phone tail can consume. -/
def phClass (c : Char) : Bool := c.isDigit || c = '(' || c = ')' || isSepClass c

/-- Characters the optional phone prefix can consume. -/
def phPreClass (c : Char) : Bool := c = '+' || c = '1' || isPySpace c

theorem charAt_mono {p q : Char → Bool} {s : List Char} {i : ℕ}
    (hpq : ∀ c, p c = true → q c = true) (h : charAt p s i = true) : charAt q s i = true := by
  obtain ⟨c, hg, hc⟩ := charAt_eq_true h
  exact charAt_of_get hg (hpq c hc)

theorem optChar_cover {p : Char → Bool} {s : List Char} {j i : ℕ}
    (h1 : j ≤ i) (h2 : i < optChar p s j) : charAt p s i = true := by
  have hle := optChar_le (p := p) s j
  have hne : optChar p s j ≠ j := by omega
  obtain ⟨ha, hc⟩ := optChar_adv hne
  have hij : i = j := by omega
  rw [hij]
  exact hc

theorem space_preCover {s : List Char} {j i : ℕ} (h1 : j ≤ i)
    (h2 : i < optChar isPySpace s j) : charAt phPreClass s i = true :=
  charAt_mono (fun c hc => by simp [phPreClass, hc]) (optChar_cover h1 h2)

theorem phoneTail_some {s : List Char} {j0 e : ℕ} (h : phoneTail s j0 = some e) :
    ∃ j2 j5,
      digitsFrom 3 s (optChar (· = '(') s j0) = some j2 ∧
      digitsFrom 3 s (optChar isSepClass s (optChar (· = ')') s j2)) = some j5 ∧
      digitsFrom 4 s (optChar isSepClass s j5) = some e ∧
      bdry (s.get? (e - 1)) (s.get? e) = true := by
  simp only [phoneTail] at h
  cases hd1 : digitsFrom 3 s (optChar (· = '(') s j0) with
  | none => rw [hd1] at h; cases h
  | some j2 =>
      rw [hd1, Option.some_bind] at h
      cases hd2 : digitsFrom 3 s (optChar isSepClass s (optChar (· = ')') s j2)) with
      | none => rw [hd2] at h; cases h
      | some j5 =>
          rw [hd2, Option.some_bind] at h
          cases hd3 : digitsFrom 4 s (optChar isSepClass s j5) with
          | none => rw [hd3] at h; cases h
          | some j7 =>
              rw [hd3, Option.some_bind] at h
              split at h
              · next hbd =>
                  have he : j7 = e := Option.some.inj h
                  subst he
                  exact ⟨j2, j5, rfl, hd2, hd3, hbd⟩
              · cases h

theorem phoneTail_mk {s : List Char} {j0 j2 j5 e : ℕ}
    (h1 : digitsFrom 3 s (optChar (· = '(') s j0) = some j2)
    (h2 : digitsFrom 3 s (optChar isSepClass s (optChar (· = ')') s j2)) = some j5)
    (h3 : digitsFrom 4 s (optChar isSepClass s j5) = some e)
    (h4 : bdry (s.get? (e - 1)) (s.get? e) = true) :
    phoneTail s j0 = some e := by
  simp only [phoneTail]
  rw [h1, Option.some_bind, h2, Option.some_bind, h3, Option.some_bind, if_pos h4]

theorem phoneTail_facts {s : List Char} {j0 e : ℕ} (h : phoneTail s j0 = some e) :
    j0 + 10 ≤ e ∧ e ≤ j0 + 14 ∧ (∀ i, j0 ≤ i → i < e → charAt phClass s i = true) ∧
    isDigitAt s (e - 1) = true ∧ bdry (s.get? (e - 1)) (s.get? e) = true := by
  obtain ⟨j2, j5, hd1, hd2, hd3, hbd⟩ := phoneTail_some h
  obtain ⟨he2, hg1⟩ := digitsFrom_some hd1
  obtain ⟨he5, hg2⟩ := digitsFrom_some hd2
  obtain ⟨he7, hg3⟩ := digitsFrom_some hd3
  have o1 := optChar_le (p := (· = '(')) s j0
  have o3 := optChar_le (p := (· = ')')) s j2
  have o4 := optChar_le (p := isSepClass) s (optChar (· = ')') s j2)
  have o6 := optChar_le (p := isSepClass) s j5
  refine ⟨by omega, by omega, ?_, ?_, hbd⟩
  · intro i hi1 hi2
    by_cases c1 : i < optChar (· = '(') s j0
    · refine charAt_mono (fun c hc' => ?_) (optChar_cover hi1 c1)
      rw [decide_eq_true_eq] at hc'
      subst hc'
      decide
    · push_neg at c1
      by_cases c2 : i < j2
      · have hd := hg1 (i - optChar (· = '(') s j0) (by omega)
        rw [show optChar (· = '(') s j0 + (i - optChar (· = '(') s j0) = i by omega] at hd
        obtain ⟨c, hg, hc⟩ := isDigitAt_eq_true hd
        exact charAt_of_get hg (by simp [phClass, hc])
      · push_neg at c2
        by_cases c3 : i < optChar (· = ')') s j2
        · refine charAt_mono (fun c hc' => ?_) (optChar_cover c2 c3)
          rw [decide_eq_true_eq] at hc'
          subst hc'
          decide
        · push_neg at c3
          by_cases c4 : i < optChar isSepClass s (optChar (· = ')') s j2)
          · exact charAt_mono (fun c hc' => by simp [phClass, hc']) (optChar_cover c3 c4)
          · push_neg at c4
            by_cases c5 : i < j5
            · have hd := hg2 (i - optChar isSepClass s (optChar (· = ')') s j2)) (by omega)
              rw [show optChar isSepClass s (optChar (· = ')') s j2) +
                (i - optChar isSepClass s (optChar (· = ')') s j2)) = i by omega] at hd
              obtain ⟨c, hg, hc⟩ := isDigitAt_eq_true hd
              exact charAt_of_get hg (by simp [phClass, hc])
            · push_neg at c5
              by_cases c6 : i < optChar isSepClass s j5
              · exact charAt_mono (fun c hc' => by simp [phClass, hc']) (optChar_cover c5 c6)
              · push_neg at c6
                have hd := hg3 (i - optChar isSepClass s j5) (by omega)
                rw [show optChar isSepClass s j5 + (i - optChar isSepClass s j5) = i
                  by omega] at hd
                obtain ⟨c, hg, hc⟩ := isDigitAt_eq_true hd
                exact charAt_of_get hg (by simp [phClass, hc])
  · have hd := hg3 3 (by omega)
    rwa [show optChar isSepClass s j5 + 3 = e - 1 by omega] at hd

theorem phoneTail_congr {s t : List Char} {j0 e : ℕ} (h : phoneTail s j0 = some e)
    (hag : ∀ i, i < e → s.get? i = t.get? i)
    (hw : isWordOpt (s.get? e) = isWordOpt (t.get? e)) : phoneTail t j0 = some e := by
  obtain ⟨j2, j5, hd1, hd2, hd3, hbd⟩ := phoneTail_some h
  obtain ⟨he2, hg1⟩ := digitsFrom_some hd1
  obtain ⟨he5, hg2⟩ := digitsFrom_some hd2
  obtain ⟨he7, hg3⟩ := digitsFrom_some hd3
  have o1 := optChar_le (p := (· = '(')) s j0
  have o3 := optChar_le (p := (· = ')')) s j2
  have o4 := optChar_le (p := isSepClass) s (optChar (· = ')') s j2)
  have o6 := optChar_le (p := isSepClass) s j5
  have q1 : optChar (· = '(') t j0 = optChar (· = '(') s j0 :=
    (optChar_congr (hag j0 (by omega))).symm
  have q3 : optChar (· = ')') t j2 = optChar (· = ')') s j2 :=
    (optChar_congr (hag j2 (by omega))).symm
  have q4 : optChar isSepClass t (optChar (· = ')') s j2) =
      optChar isSepClass s (optChar (· = ')') s j2) :=
    (optChar_congr (hag (optChar (· = ')') s j2) (by omega))).symm
  have q6 : optChar isSepClass t j5 = optChar isSepClass s j5 :=
    (optChar_congr (hag j5 (by omega))).symm
  have hd1t : digitsFrom 3 t (optChar (· = '(') t j0) = some j2 := by
    rw [q1, he2]
    apply digitsFrom_of_digits
    intro x hx
    rw [← isDigitAt_congr (hag (optChar (· = '(') s j0 + x) (by omega))]
    exact hg1 x hx
  have hd2t : digitsFrom 3 t (optChar isSepClass t (optChar (· = ')') t j2)) = some j5 := by
    rw [q3, q4, he5]
    apply digitsFrom_of_digits
    intro x hx
    rw [← isDigitAt_congr
      (hag (optChar isSepClass s (optChar (· = ')') s j2) + x) (by omega))]
    exact hg2 x hx
  have hd3t : digitsFrom 4 t (optChar isSepClass t j5) = some e := by
    rw [q6, he7]
    apply digitsFrom_of_digits
    intro x hx
    rw [← isDigitAt_congr (hag (optChar isSepClass s j5 + x) (by omega))]
    exact hg3 x hx
  have hbdt : bdry (t.get? (e - 1)) (t.get? e) = true := by
    rw [bdry_congr2 _ (s.get? (e - 1)) _ (s.get? e)
      (by rw [← hag (e - 1) (by omega)]) hw.symm]
    exact hbd
  exact phoneTail_mk hd1t hd2t hd3t hbdt

theorem phoneAt_some {prev : Option Char} {s : List Char} {n : ℕ}
    (h : phoneAt prev s = some n) :
    bdry prev (s.get? 0) = true ∧ ∃ j0, j0 ≤ 3 ∧ phoneTail s j0 = some n ∧
      ∀ i, i < j0 → charAt phPreClass s i = true := by
  simp only [phoneAt] at h
  split at h
  · next hb =>
      refine ⟨hb, ?_⟩
      by_cases hp : s.get? 0 = some '+'
      · rw [if_pos hp] at h
        by_cases h1 : s.get? 1 = some '1'
        · rw [if_pos h1] at h
          cases hA : phoneTail s (optChar isPySpace s (1 + 1)) with
          | some a =>
              rw [hA, Option.some_orElse] at h
              have ha : a = n := Option.some.inj h
              subst ha
              have hle := optChar_le (p := isPySpace) s (1 + 1)
              refine ⟨optChar isPySpace s (1 + 1), by omega, hA, ?_⟩
              intro i hi
              have hub : i ≤ 2 := by omega
              interval_cases i
              · exact charAt_of_get hp (by decide)
              · exact charAt_of_get h1 (by decide)
              · exact space_preCover (by omega) hi
          | none =>
              rw [hA, Option.none_orElse] at h
              have hle := optChar_le (p := isPySpace) s 1
              refine ⟨optChar isPySpace s 1, by omega, h, ?_⟩
              intro i hi
              have hub : i ≤ 1 := by omega
              interval_cases i
              · exact charAt_of_get hp (by decide)
              · exact space_preCover (by omega) hi
        · rw [if_neg h1, Option.none_orElse] at h
          have hle := optChar_le (p := isPySpace) s 1
          refine ⟨optChar isPySpace s 1, by omega, h, ?_⟩
          intro i hi
          have hub : i ≤ 1 := by omega
          interval_cases i
          · exact charAt_of_get hp (by decide)
          · exact space_preCover (by omega) hi
      · rw [if_neg hp] at h
        by_cases h1 : s.get? 0 = some '1'
        · rw [if_pos h1] at h
          cases hA : phoneTail s (optChar isPySpace s (0 + 1)) with
          | some a =>
              rw [hA, Option.some_orElse] at h
              have ha : a = n := Option.some.inj h
              subst ha
              have hle := optChar_le (p := isPySpace) s (0 + 1)
              refine ⟨optChar isPySpace s (0 + 1), by omega, hA, ?_⟩
              intro i hi
              have hub : i ≤ 1 := by omega
              interval_cases i
              · exact charAt_of_get h1 (by decide)
              · exact space_preCover (by omega) hi
          | none =>
              rw [hA, Option.none_orElse] at h
              have hle := optChar_le (p := isPySpace) s 0
              refine ⟨optChar isPySpace s 0, by omega, h, ?_⟩
              intro i hi
              have hub : i ≤ 0 := by omega
              interval_cases i
              exact space_preCover (by omega) hi
        · rw [if_neg h1, Option.none_orElse] at h
          have hle := optChar_le (p := isPySpace) s 0
          refine ⟨optChar isPySpace s 0, by omega, h, ?_⟩
          intro i hi
          have hub : i ≤ 0 := by omega
          interval_cases i
          exact space_preCover (by omega) hi
  · cases h

theorem ph_head_facts {w rest : List Char} (hw : ∀ c ∈ w, c.isUpper = true ∨ c = '_') :
    ∃ c, (w ++ '>' :: rest).get? 0 = some c ∧ c.isDigit = false ∧ c ≠ '+' ∧ c ≠ '1' ∧
      c ≠ '(' ∧ isPySpace c = false := by
  cases w with
  | nil =>
      refine ⟨'>', ?_, by decide, by decide, by decide, by decide, by decide⟩
      rw [List.nil_append, List.get?_cons_zero]
  | cons c w' =>
      obtain ⟨f1, f2, f3, f4, f5, -, -⟩ := phBody_facts (by simpa using hw c (by simp))
      refine ⟨c, ?_, f1, f2, f3, f4, f5⟩
      rw [List.cons_append, List.get?_cons_zero]

theorem phoneAt_MOK : MOK phoneAt := by
  constructor
  · intro prev s n h
    obtain ⟨-, j0, -, ht, -⟩ := phoneAt_some h
    have := (phoneTail_facts ht).1
    omega
  · intro prev s n h
    obtain ⟨-, j0, -, ht, -⟩ := phoneAt_some h
    obtain ⟨c, hg, -⟩ := isDigitAt_eq_true (phoneTail_facts ht).2.2.2.1
    rw [hg]
    simp
  · intro prev s n h i hi
    obtain ⟨-, j0, -, ht, hcov⟩ := phoneAt_some h
    obtain ⟨-, -, hcl, -, -⟩ := phoneTail_facts ht
    by_cases hc : i < j0
    · exact charAt_ne_angle (hcov i hc) (by decide) (by decide)
    · exact charAt_ne_angle (hcl i (by omega) hi) (by decide) (by decide)
  · intro prev s n h
    obtain ⟨-, j0, -, ht, -⟩ := phoneAt_some h
    exact (phoneTail_facts ht).2.2.2.2
  · intro prev s n h
    exact (phoneAt_some h).1
  · intro prev prev' s h
    simp only [phoneAt]
    rw [bdry_congr h rfl]
  · intro prev s t n h hag hw
    have hb := (phoneAt_some h).1
    have hn10 : 10 ≤ n := by
      obtain ⟨-, j0, -, ht, -⟩ := phoneAt_some h
      have := (phoneTail_facts ht).1
      omega
    simp only [phoneAt] at h ⊢
    rw [if_pos hb] at h
    have h0 : s.get? 0 = t.get? 0 := hag 0 (by omega)
    have h1' : s.get? 1 = t.get? 1 := hag 1 (by omega)
    rw [← h0, if_pos hb]
    by_cases hp : s.get? 0 = some '+'
    · rw [if_pos hp] at h ⊢
      rw [← h1']
      by_cases h1 : s.get? 1 = some '1'
      · rw [if_pos h1] at h ⊢
        have q2 : optChar isPySpace t (1 + 1) = optChar isPySpace s (1 + 1) :=
          (optChar_congr (hag (1 + 1) (by omega))).symm
        have q1 : optChar isPySpace t 1 = optChar isPySpace s 1 :=
          (optChar_congr (hag 1 (by omega))).symm
        rw [q2, q1]
        cases hA : phoneTail s (optChar isPySpace s (1 + 1)) with
        | some a =>
            rw [hA, Option.some_orElse] at h
            have ha : a = n := Option.some.inj h
            subst ha
            rw [phoneTail_congr hA hag hw, Option.some_orElse]
            simp
        | none =>
            rw [hA, Option.none_orElse] at h
            cases hAt : phoneTail t (optChar isPySpace s (1 + 1)) with
            | some b =>
                simp
            | none =>
                rw [Option.none_orElse, phoneTail_congr h hag hw]
                simp
      · rw [if_neg h1, Option.none_orElse] at h
        have q1 : optChar isPySpace t 1 = optChar isPySpace s 1 :=
          (optChar_congr (hag 1 (by omega))).symm
        rw [if_neg h1, Option.none_orElse, q1, phoneTail_congr h hag hw]
        simp
    · rw [if_neg hp] at h ⊢
      rw [← h0]
      by_cases h1 : s.get? 0 = some '1'
      · rw [if_pos h1] at h ⊢
        have q2 : optChar isPySpace t (0 + 1) = optChar isPySpace s (0 + 1) :=
          (optChar_congr (hag (0 + 1) (by omega))).symm
        have q0 : optChar isPySpace t 0 = optChar isPySpace s 0 :=
          (optChar_congr (hag 0 (by omega))).symm
        rw [q2, q0]
        cases hA : phoneTail s (optChar isPySpace s (0 + 1)) with
        | some a =>
            rw [hA, Option.some_orElse] at h
            have ha : a = n := Option.some.inj h
            subst ha
            rw [phoneTail_congr hA hag hw, Option.some_orElse]
            simp
        | none =>
            rw [hA, Option.none_orElse] at h
            cases hAt : phoneTail t (optChar isPySpace s (0 + 1)) with
            | some b =>
                simp
            | none =>
                rw [Option.none_orElse, phoneTail_congr h hag hw]
                simp
      · rw [if_neg h1, Option.none_orElse] at h
        have q0 : optChar isPySpace t 0 = optChar isPySpace s 0 :=
          (optChar_congr (hag 0 (by omega))).symm
        rw [if_neg h1, Option.none_orElse, q0, phoneTail_congr h hag hw]
        simp
  · intro prev w rest hw
    obtain ⟨c, hg, hcd, hcp, hc1, hcparen, hcsp⟩ := ph_head_facts hw
    have hde : isDigitAt (w ++ '>' :: rest) 0 = false := by
      unfold isDigitAt
      rw [hg]
      exact hcd
    have hnp : ¬((w ++ '>' :: rest).get? 0 = some '+') := by
      rw [hg]
      intro he
      exact hcp (Option.some.inj he)
    have hn1 : ¬((w ++ '>' :: rest).get? 0 = some '1') := by
      rw [hg]
      intro he
      exact hc1 (Option.some.inj he)
    have hsp0 : charAt isPySpace (w ++ '>' :: rest) 0 = false := by
      unfold charAt
      rw [hg]
      exact hcsp
    have hop : optChar isPySpace (w ++ '>' :: rest) 0 = 0 := by
      unfold optChar
      rw [hsp0]
      rfl
    have hpl : charAt (· = '(') (w ++ '>' :: rest) 0 = false := by
      unfold charAt
      rw [hg]
      exact decide_eq_false hcparen
    have hol : optChar (· = '(') (w ++ '>' :: rest) 0 = 0 := by
      unfold optChar
      rw [hpl]
      rfl
    have hdf : digitsFrom 3 (w ++ '>' :: rest) 0 = none := by
      unfold digitsFrom
      rw [if_neg]
      intro hall
      rw [List.all_eq_true] at hall
      have h00 := hall 0 (by decide)
      rw [show (0 : ℕ) + 0 = 0 from rfl, hde] at h00
      cases h00
    have hpt : phoneTail (w ++ '>' :: rest) 0 = none := by
      simp only [phoneTail]
      rw [hol, hdf]
      rfl
    simp only [phoneAt]
    split
    · rw [Option.none_orElse, hop, hpt]
    · rfl

/-! ### MOK for the e-mail matcher -/

theorem charAt_drop {p : Char → Bool} (s : List Char) (j x : ℕ) :
    charAt p (s.drop j) x = charAt p s (j + x) := by
  unfold charAt
  rw [List.get?_drop]

theorem get_ne_angle {s : List Char} {i : ℕ} {c : Char} (hg : s.get? i = some c)
    (h1 : c ≠ '<') (h2 : c ≠ '>') : s.get? i ≠ some '<' ∧ s.get? i ≠ some '>' := by
  constructor
  · intro he
    rw [hg] at he
    exact h1 (Option.some.inj he)
  · intro he
    rw [hg] at he
    exact h2 (Option.some.inj he)

theorem emailTldGo_some {s : List Char} {tstart m : ℕ} :
    ∀ T, emailTldGo s tstart T = some m →
      ∃ u, 2 ≤ u ∧ u ≤ T ∧ m = tstart + u ∧
        bdry (s.get? (tstart + u - 1)) (s.get? (tstart + u)) = true := by
  intro T
  induction T with
  | zero => intro h; cases h
  | succ t ih =>
      intro h
      unfold emailTldGo at h
      split at h
      · next h2 =>
          split at h
          · next hbd =>
              have hm := Option.some.inj h
              refine ⟨t + 1, h2, le_refl _, by omega, ?_⟩
              rw [show tstart + (t + 1) - 1 = tstart + t by omega,
                show tstart + (t + 1) = tstart + t + 1 by omega]
              exact hbd
          · obtain ⟨u, hu2, hut, hm, hbd⟩ := ih h
            exact ⟨u, hu2, by omega, hm, hbd⟩
      · cases h

theorem emailTldGo_reach {t : List Char} {tstart u : ℕ} (h2 : 2 ≤ u)
    (hbd : bdry (t.get? (tstart + u - 1)) (t.get? (tstart + u)) = true) :
    ∀ T, u ≤ T → emailTldGo t tstart T ≠ none := by
  intro T
  induction T with
  | zero => intro hle; omega
  | succ k ih =>
      intro hle
      unfold emailTldGo
      rw [if_pos (by omega : 2 ≤ k + 1)]
      by_cases hb : bdry (t.get? (tstart + k)) (t.get? (tstart + k + 1)) = true
      · rw [if_pos hb]
        simp
      · rw [if_neg hb]
        by_cases huk : u = k + 1
        · exfalso
          apply hb
          rw [show tstart + k + 1 = tstart + u by omega,
            show tstart + k = tstart + u - 1 by omega]
          exact hbd
        · exact ih (by omega)

theorem emailTld_some {s : List Char} {at0 d m : ℕ} (h : emailTld s at0 d = some m) :
    ∃ u, 2 ≤ u ∧ u ≤ leadCount isTClass (s.drop (at0 + d + 1)) ∧ m = at0 + d + 1 + u ∧
      bdry (s.get? (at0 + d + 1 + u - 1)) (s.get? (at0 + d + 1 + u)) = true := by
  unfold emailTld at h
  exact emailTldGo_some _ h

theorem emailDom_some {s : List Char} {at0 m : ℕ} :
    ∀ K, emailDom s at0 K = some m →
      ∃ d, 1 ≤ d ∧ d ≤ K ∧ s.get? (at0 + d) = some '.' ∧ emailTld s at0 d = some m := by
  intro K
  induction K with
  | zero => intro h; cases h
  | succ k ih =>
      intro h
      unfold emailDom at h
      cases hA : (if s.get? (at0 + k + 1) = some '.' then emailTld s at0 (k + 1)
          else none) with
      | some a =>
          rw [hA, Option.some_orElse] at h
          have ha : a = m := Option.some.inj h
          subst ha
          by_cases hdot : s.get? (at0 + k + 1) = some '.'
          · rw [if_pos hdot] at hA
            refine ⟨k + 1, by omega, le_refl _, ?_, hA⟩
            rwa [show at0 + (k + 1) = at0 + k + 1 by omega]
          · rw [if_neg hdot] at hA
            cases hA
      | none =>
          rw [hA, Option.none_orElse] at h
          obtain ⟨d, h1, h2, h3, h4⟩ := ih h
          exact ⟨d, h1, by omega, h3, h4⟩

theorem emailDom_reach {t : List Char} {at0 d : ℕ} (hd : 1 ≤ d)
    (hdot : t.get? (at0 + d) = some '.') (htld : emailTld t at0 d ≠ none) :
    ∀ K, d ≤ K → emailDom t at0 K ≠ none := by
  intro K
  induction K with
  | zero => intro hle; omega
  | succ k ih =>
      intro hle
      unfold emailDom
      cases hA : (if t.get? (at0 + k + 1) = some '.' then emailTld t at0 (k + 1)
          else none) with
      | some a =>
          simp
      | none =>
          rw [Option.none_orElse]
          by_cases hdk : d = k + 1
          · exfalso
            subst hdk
            have hdot' : t.get? (at0 + k + 1) = some '.' := by
              rwa [show at0 + k + 1 = at0 + (k + 1) by omega]
            rw [if_pos hdot'] at hA
            exact htld hA
          · exact ih (by omega)

theorem emailAt_some {prev : Option Char} {s : List Char} {n : ℕ}
    (h : emailAt prev s = some n) :
    bdry prev (s.get? 0) = true ∧ 1 ≤ leadCount isLClass s ∧
      s.get? (leadCount isLClass s) = some '@' ∧
      emailDom s (leadCount isLClass s + 1)
        (leadCount isDClass (s.drop (leadCount isLClass s + 1)) - 1) = some n := by
  simp only [emailAt] at h
  split at h
  · next hb =>
      split at h
      · cases h
      · next hl0 =>
          split at h
          · next hat => exact ⟨hb, by omega, hat, h⟩
          · cases h
  · cases h

theorem emailAt_facts {prev : Option Char} {s : List Char} {n : ℕ}
    (h : emailAt prev s = some n) :
    ∃ l d u,
      l = leadCount isLClass s ∧ 1 ≤ l ∧ 1 ≤ d ∧ 2 ≤ u ∧ n = l + 1 + d + 1 + u ∧
      (∀ i, i < l → charAt isLClass s i = true) ∧
      s.get? l = some '@' ∧
      (∀ x, x < d → charAt isDClass s (l + 1 + x) = true) ∧
      s.get? (l + 1 + d) = some '.' ∧
      (∀ x, x < u → charAt isTClass s (l + 1 + d + 1 + x) = true) ∧
      bdry (s.get? (n - 1)) (s.get? n) = true := by
  obtain ⟨hb, hl, hat, hdom⟩ := emailAt_some h
  obtain ⟨d, hd1, hdK, hdot, htld⟩ := emailDom_some _ hdom
  obtain ⟨u, hu2, huT, hm, hbd⟩ := emailTld_some htld
  refine ⟨leadCount isLClass s, d, u, rfl, hl, hd1, hu2, hm, ?_, hat, ?_, hdot, ?_, ?_⟩
  · intro i hi
    exact leadCount_lt i hi
  · intro x hx
    have hc := leadCount_lt (p := isDClass) (s := s.drop (leadCount isLClass s + 1)) x
      (by omega)
    rwa [charAt_drop] at hc
  · intro x hx
    have hc := leadCount_lt (p := isTClass)
      (s := s.drop (leadCount isLClass s + 1 + d + 1)) x (by omega)
    rwa [charAt_drop] at hc
  · rw [show n - 1 = leadCount isLClass s + 1 + d + 1 + u - 1 by omega,
      show n = leadCount isLClass s + 1 + d + 1 + u from hm]
    exact hbd

theorem emailAt_MOK : MOK emailAt := by
  constructor
  · intro prev s n h
    obtain ⟨l, d, u, -, hl1, hd1, hu2, hn, -, -, -, -, -, -⟩ := emailAt_facts h
    omega
  · intro prev s n h
    obtain ⟨l, d, u, -, hl1, hd1, hu2, hn, -, -, -, -, hT, -⟩ := emailAt_facts h
    have hx := hT (u - 1) (by omega)
    obtain ⟨c, hg, -⟩ := charAt_eq_true hx
    rw [show l + 1 + d + 1 + (u - 1) = n - 1 by omega] at hg
    rw [hg]
    simp
  · intro prev s n h i hi
    obtain ⟨l, d, u, -, hl1, hd1, hu2, hn, hL, hat, hD, hdot, hT, -⟩ := emailAt_facts h
    by_cases c1 : i < l
    · exact charAt_ne_angle (hL i c1) (by decide) (by decide)
    · by_cases c2 : i = l
      · subst c2
        exact get_ne_angle hat (by decide) (by decide)
      · by_cases c3 : i < l + 1 + d
        · have hx := hD (i - (l + 1)) (by omega)
          rw [show l + 1 + (i - (l + 1)) = i by omega] at hx
          exact charAt_ne_angle hx (by decide) (by decide)
        · by_cases c4 : i = l + 1 + d
          · subst c4
            exact get_ne_angle hdot (by decide) (by decide)
          · have hx := hT (i - (l + 1 + d + 1)) (by omega)
            rw [show l + 1 + d + 1 + (i - (l + 1 + d + 1)) = i by omega] at hx
            exact charAt_ne_angle hx (by decide) (by decide)
  · intro prev s n h
    obtain ⟨l, d, u, -, -, -, -, -, -, -, -, -, -, hbd⟩ := emailAt_facts h
    exact hbd
  · intro prev s n h
    exact (emailAt_some h).1
  · intro prev prev' s h
    simp only [emailAt]
    rw [bdry_congr h rfl]
  · intro prev s t n h hag hw
    have hb := (emailAt_some h).1
    obtain ⟨l, d, u, hleq, hl1, hd1, hu2, hn, hL, hat, hD, hdot, hT, hbd⟩ := emailAt_facts h
    have hlt : leadCount isLClass t = l := by
      apply leadCount_eq
      · intro i hi
        rw [← charAt_congr (hag i (by omega))]
        exact hL i hi
      · rw [← charAt_congr (hag l (by omega))]
        unfold charAt
        rw [hat]
        decide
    have hat_t : t.get? l = some '@' := by
      rw [← hag l (by omega)]
      exact hat
    have hDt : d + 1 ≤ leadCount isDClass (t.drop (l + 1)) := by
      apply le_leadCount
      intro x hx
      rw [charAt_drop]
      by_cases hxd : x < d
      · rw [← charAt_congr (hag (l + 1 + x) (by omega))]
        exact hD x hxd
      · have hxe : x = d := by omega
        subst hxe
        rw [← charAt_congr (hag (l + 1 + x) (by omega))]
        unfold charAt
        rw [hdot]
        decide
    have hTt : u ≤ leadCount isTClass (t.drop (l + 1 + d + 1)) := by
      apply le_leadCount
      intro x hx
      rw [charAt_drop, ← charAt_congr (hag (l + 1 + d + 1 + x) (by omega))]
      exact hT x hx
    have hbdt : bdry (t.get? (n - 1)) (t.get? n) = true := by
      rw [bdry_congr2 _ (s.get? (n - 1)) _ (s.get? n)
        (by rw [← hag (n - 1) (by omega)]) hw.symm]
      exact hbd
    have htld : emailTld t (l + 1) d ≠ none := by
      unfold emailTld
      have hbdX : bdry (t.get? (l + 1 + d + 1 + u - 1)) (t.get? (l + 1 + d + 1 + u)) =
          true := by
        rw [show l + 1 + d + 1 + u - 1 = n - 1 by omega,
          show l + 1 + d + 1 + u = n by omega]
        exact hbdt
      exact emailTldGo_reach hu2 hbdX _ hTt
    have hdot_t : t.get? (l + 1 + d) = some '.' := by
      rw [← hag (l + 1 + d) (by omega)]
      exact hdot
    have hdome : emailDom t (l + 1) (leadCount isDClass (t.drop (l + 1)) - 1) ≠ none :=
      emailDom_reach hd1 hdot_t htld _ (by omega)
    simp only [emailAt]
    rw [bdry_congr2 _ (prev) _ (s.get? 0) rfl (by rw [← hag 0 (by omega)]),
      if_pos hb, hlt, if_neg (by omega : ¬(l = 0)), if_pos hat_t]
    exact hdome
  · intro prev w rest hw
    have hgl : (w ++ '>' :: rest).get? w.length = some '>' := by
      rw [List.get?_append_right (le_refl _), Nat.sub_self]
      rfl
    simp only [emailAt]
    split
    · have hl : leadCount isLClass (w ++ '>' :: rest) = w.length := by
        apply leadCount_eq
        · intro i hi
          have hgi : (w ++ '>' :: rest).get? i = some (w.get ⟨i, hi⟩) := by
            rw [List.get?_append hi]
            exact List.get?_eq_get hi
          exact charAt_of_get hgi
            ((phBody_facts (by simpa using hw _ (List.get_mem w i hi))).2.2.2.2.2.1)
        · unfold charAt
          rw [hgl]
          decide
      rw [hl]
      by_cases hw0 : w.length = 0
      · rw [if_pos hw0]
      · have hne : ¬((w ++ '>' :: rest).get? w.length = some '@') := by
          rw [hgl]
          intro he
          exact absurd (Option.some.inj he) (by decide)
        rw [if_neg hw0, if_neg hne]
    · rfl

/-! ### The scan: fuel elimination and cleanliness -/

theorem subScanGo_fuel (m : Matcher) (ph : List Char) :
    ∀ fuel prev s, s.length ≤ fuel →
      subScanGo m ph fuel prev s = subScanGo m ph s.length prev s := by
  intro fuel
  induction fuel using Nat.strong_induction_on with
  | _ fuel ih =>
      intro prev s hle
      cases fuel with
      | zero =>
          have hs : s = [] := List.length_eq_zero.mp (by omega)
          subst hs
          rfl
      | succ f =>
          cases s with
          | nil => rfl
          | cons c rest =>
              rw [List.length_cons]
              simp only [List.length_cons] at hle
              cases hmx : m prev (c :: rest) with
              | none =>
                  simp only [subScanGo, hmx]
                  rw [ih f (by omega) (some c) rest (by omega)]
              | some n =>
                  cases n with
                  | zero =>
                      simp only [subScanGo, hmx]
                      rw [ih f (by omega) (some c) rest (by omega)]
                  | succ n =>
                      simp only [subScanGo, hmx]
                      rw [ih f (by omega) ((c :: rest).get? n) (rest.drop n)
                          (by simp [List.length_drop]; omega),
                        ih rest.length (by omega) ((c :: rest).get? n) (rest.drop n)
                          (by simp [List.length_drop])]

theorem subScan_nil (m : Matcher) (ph : List Char) (prev : Option Char) :
    subScan m ph prev [] = ([], 0) := rfl

theorem subScan_cons_match {m : Matcher} {ph : List Char} {prev : Option Char}
    {c : Char} {rest : List Char} {n : ℕ} (hm : m prev (c :: rest) = some (n + 1)) :
    subScan m ph prev (c :: rest) =
      (ph ++ (subScan m ph ((c :: rest).get? n) (rest.drop n)).1,
        (subScan m ph ((c :: rest).get? n) (rest.drop n)).2 + 1) := by
  unfold subScan
  rw [List.length_cons]
  simp only [subScanGo, hm]
  rw [subScanGo_fuel m ph rest.length ((c :: rest).get? n) (rest.drop n) (by simp)]

theorem subScan_cons_miss {m : Matcher} {ph : List Char} {prev : Option Char}
    {c : Char} {rest : List Char} (hm : m prev (c :: rest) = none) :
    subScan m ph prev (c :: rest) =
      (c :: (subScan m ph (some c) rest).1, (subScan m ph (some c) rest).2) := by
  unfold subScan
  rw [List.length_cons]
  simp only [subScanGo, hm]

theorem subScan_cons_zero {m : Matcher} {ph : List Char} {prev : Option Char}
    {c : Char} {rest : List Char} (hm : m prev (c :: rest) = some 0) :
    subScan m ph prev (c :: rest) =
      (c :: (subScan m ph (some c) rest).1, (subScan m ph (some c) rest).2) := by
  unfold subScan
  rw [List.length_cons]
  simp only [subScanGo, hm]

/-- The character preceding the suffix `s.drop a` during a scan of `s`
that started with previous character `prev`. -/
def prevAt (prev : Option Char) (s : List Char) : ℕ → Option Char
  | 0 => prev
  | a + 1 => s.get? a

/-- `s` is clean for `m` from context `prev`: the matcher fails at every
suffix, each with its correct preceding character. -/
def CleanFrom (m : Matcher) (prev : Option Char) (s : List Char) : Prop :=
  ∀ a, m (prevAt prev s a) (s.drop a) = none

theorem CleanFrom.cons {m : Matcher} {prev : Option Char} {c : Char} {rest : List Char}
    (h : CleanFrom m prev (c :: rest)) : CleanFrom m (some c) rest := by
  intro a
  have hx := h (a + 1)
  cases a with
  | zero => exact hx
  | succ a' => exact hx

theorem CleanFrom.drop {m : Matcher} {prev : Option Char} {s : List Char}
    (h : CleanFrom m prev s) (k : ℕ) : CleanFrom m (prevAt prev s k) (s.drop k) := by
  intro a
  cases a with
  | zero =>
      have hx := h k
      exact hx
  | succ a' =>
      have hx := h (k + a' + 1)
      show m ((s.drop k).get? a') ((s.drop k).drop (a' + 1)) = none
      rw [List.get?_drop, List.drop_drop, show k + (a' + 1) = k + a' + 1 by omega]
      exact hx

theorem scan_of_clean {m : Matcher} (ph : List Char) :
    ∀ N s prev, s.length ≤ N → CleanFrom m prev s → subScan m ph prev s = (s, 0) := by
  intro N
  induction N with
  | zero =>
      intro s prev hle hc
      have hs : s = [] := List.length_eq_zero.mp (by omega)
      subst hs
      rfl
  | succ N ih =>
      intro s prev hle hc
      cases s with
      | nil => rfl
      | cons c rest =>
          have h0 : m prev (c :: rest) = none := hc 0
          rw [subScan_cons_miss h0,
            ih rest (some c) (by simp at hle; omega) (CleanFrom.cons hc)]

theorem scanZero {m : Matcher} (ph : List Char) :
    ∀ N s prev, s.length ≤ N → (subScan m ph prev s).2 = 0 →
      (subScan m ph prev s).1 = s := by
  intro N
  induction N with
  | zero =>
      intro s prev hle h2
      have hs : s = [] := List.length_eq_zero.mp (by omega)
      subst hs
      rfl
  | succ N ih =>
      intro s prev hle h2
      cases s with
      | nil => rfl
      | cons c rest =>
          cases hmx : m prev (c :: rest) with
          | none =>
              rw [subScan_cons_miss hmx] at h2 ⊢
              rw [ih rest (some c) (by simp at hle; omega) h2]
          | some n =>
              cases n with
              | zero =>
                  rw [subScan_cons_zero hmx] at h2 ⊢
                  rw [ih rest (some c) (by simp at hle; omega) h2]
              | succ n =>
                  rw [subScan_cons_match hmx] at h2
                  simp at h2

/-- The block structure of one scan: the output is the input with every
leftmost match replaced by `ph`, and on every tested (unmatched) head
both the scanned matcher `m` and a second observer matcher `m'` fail. -/
inductive BlocksC (m' m : Matcher) (ph : List Char) :
    Option Char → List Char → List Char → Prop
  | nil (prev : Option Char) : BlocksC m' m ph prev [] []
  | matched (prev : Option Char) (c : Char) (rest : List Char) (n : ℕ) (out' : List Char) :
      m prev (c :: rest) = some (n + 1) →
      BlocksC m' m ph ((c :: rest).get? n) (rest.drop n) out' →
      BlocksC m' m ph prev (c :: rest) (ph ++ out')
  | tested (prev : Option Char) (c : Char) (rest out' : List Char) :
      m prev (c :: rest) = none →
      m' prev (c :: rest) = none →
      BlocksC m' m ph (some c) rest out' →
      BlocksC m' m ph prev (c :: rest) (c :: out')

theorem bdry_word_left {a b : Option Char} (h : bdry a b = true)
    (hb : isWordOpt b = true) : isWordOpt a = false := by
  unfold bdry at h
  rw [hb] at h
  cases ha : isWordOpt a
  · rfl
  · rw [ha] at h
    exact absurd h (by decide)

theorem drop_append_right {α : Type} (l1 l2 : List α) (k : ℕ) :
    (l1 ++ l2).drop (l1.length + k) = l2.drop k := by
  induction l1 with
  | nil => simp
  | cons x xs ih =>
      rw [List.cons_append, List.length_cons,
        show xs.length + 1 + k = (xs.length + k) + 1 by omega, List.drop_succ_cons]
      exact ih

theorem get_append_right {α : Type} (l1 l2 : List α) (k : ℕ) :
    (l1 ++ l2).get? (l1.length + k) = l2.get? k := by
  rw [List.get?_append_right (by omega), Nat.add_sub_cancel_left]

theorem subScan_blocks_self {m : Matcher} (hm : MOK m) (ph : List Char) :
    ∀ N s prev, s.length ≤ N → BlocksC m m ph prev s ((subScan m ph prev s).1) := by
  intro N
  induction N with
  | zero =>
      intro s prev hle
      have hs : s = [] := List.length_eq_zero.mp (by omega)
      subst hs
      exact BlocksC.nil prev
  | succ N ih =>
      intro s prev hle
      cases s with
      | nil => exact BlocksC.nil prev
      | cons c rest =>
          simp only [List.length_cons] at hle
          cases hmx : m prev (c :: rest) with
          | none =>
              rw [subScan_cons_miss hmx]
              exact BlocksC.tested _ _ _ _ hmx hmx (ih rest (some c) (by omega))
          | some n =>
              cases n with
              | zero => exact absurd (hm.one_le _ _ _ hmx) (by omega)
              | succ n =>
                  rw [subScan_cons_match hmx]
                  exact BlocksC.matched _ _ _ _ _ hmx
                    (ih (rest.drop n) ((c :: rest).get? n)
                      (by simp [List.length_drop]; omega))

theorem subScan_blocks_pres {m m' : Matcher} (hm : MOK m) (ph : List Char) :
    ∀ N s prev, s.length ≤ N → CleanFrom m' prev s →
      BlocksC m' m ph prev s ((subScan m ph prev s).1) := by
  intro N
  induction N with
  | zero =>
      intro s prev hle hc
      have hs : s = [] := List.length_eq_zero.mp (by omega)
      subst hs
      exact BlocksC.nil prev
  | succ N ih =>
      intro s prev hle hc
      cases s with
      | nil => exact BlocksC.nil prev
      | cons c rest =>
          simp only [List.length_cons] at hle
          cases hmx : m prev (c :: rest) with
          | none =>
              rw [subScan_cons_miss hmx]
              exact BlocksC.tested _ _ _ _ hmx (hc 0)
                (ih rest (some c) (by omega) (CleanFrom.cons hc))
          | some n =>
              cases n with
              | zero => exact absurd (hm.one_le _ _ _ hmx) (by omega)
              | succ n =>
                  rw [subScan_cons_match hmx]
                  exact BlocksC.matched _ _ _ _ _ hmx
                    (ih (rest.drop n) ((c :: rest).get? n)
                      (by simp [List.length_drop]; omega)
                      (CleanFrom.drop hc (n + 1)))

theorem blocks_head {m' m : Matcher} {body : List Char} {prev : Option Char}
    {s out : List Char} (hB : BlocksC m' m ('<' :: body ++ ['>']) prev s out) :
    out = [] ∨ (∃ r, out = '<' :: r) ∨ ∃ c s' r, s = c :: s' ∧ out = c :: r := by
  cases hB with
  | nil => left; rfl
  | matched prev c rest n out' hmm hchild =>
      right; left
      exact ⟨(body ++ ['>']) ++ out', by simp⟩
  | tested prev c rest out' h1 h2 hchild =>
      right; right
      exact ⟨c, rest, out', rfl, rfl⟩

theorem blocks_agree {m' m : Matcher} {body : List Char} (hm : MOK m) :
    ∀ {prev : Option Char} {s out : List Char},
      BlocksC m' m ('<' :: body ++ ['>']) prev s out →
      out = s ∨ ∃ a, (∀ i, i < a → out.get? i = s.get? i) ∧ out.get? a = some '<' ∧
        bdry (prevAt prev s a) (s.get? a) = true := by
  intro prev s out hB
  induction hB with
  | nil prev => left; rfl
  | matched prev c rest n out' hmm hchild ihc =>
      right
      refine ⟨0, by omega, ?_, ?_⟩
      · simp
      · exact hm.start_bdry _ _ _ hmm
  | tested prev c rest out' h1 h2 hchild ihc =>
      rcases ihc with heq | ⟨a, hagr, hang, hbd⟩
      · left
        rw [heq]
      · right
        refine ⟨a + 1, ?_, ?_, ?_⟩
        · intro i hi
          cases i with
          | zero => rfl
          | succ i' =>
              rw [List.get?_cons_succ, List.get?_cons_succ]
              exact hagr i' (by omega)
        · rw [List.get?_cons_succ]
          exact hang
        · show bdry ((c :: rest).get? a) ((c :: rest).get? (a + 1)) = true
          rw [List.get?_cons_succ]
          cases a with
          | zero =>
              rw [List.get?_cons_zero]
              exact hbd
          | succ a' =>
              rw [List.get?_cons_succ]
              exact hbd

theorem blocks_clean {m' m : Matcher} (hm' : MOK m') (hm : MOK m) {body : List Char}
    (hbody : ∀ c ∈ body, c.isUpper = true ∨ c = '_') :
    ∀ {prev : Option Char} {s out : List Char},
      BlocksC m' m ('<' :: body ++ ['>']) prev s out → CleanFrom m' prev out := by
  intro prev s out hB
  induction hB with
  | nil prev =>
      intro a
      rw [List.drop_nil]
      exact hm'.nil _
  | matched prev c rest n out' hmm hchild ihc =>
      have hlen : ('<' :: body ++ ['>']).length = body.length + 2 := by simp
      intro a
      by_cases ha0 : a = 0
      · subst ha0
        show m' prev (('<' :: body ++ ['>']) ++ out') = none
        rw [show ('<' :: body ++ ['>']) ++ out' = '<' :: (body ++ '>' :: out') from by simp]
        exact hm'.at_angle _ _
      · obtain ⟨b, rfl⟩ := Nat.exists_eq_succ_of_ne_zero ha0
        by_cases hbx : b ≤ body.length
        · show m' ((('<' :: body ++ ['>']) ++ out').get? b)
              ((('<' :: body ++ ['>']) ++ out').drop (b + 1)) = none
          have hdrop : (('<' :: body ++ ['>']) ++ out').drop (b + 1)
              = body.drop b ++ '>' :: out' := by
            rw [show ('<' :: body ++ ['>']) ++ out' = '<' :: (body ++ '>' :: out')
                from by simp,
              List.drop_succ_cons, List.drop_append_of_le_length hbx]
          rw [hdrop]
          exact hm'.ph_start _ _ _ (fun ch hc => hbody ch (List.drop_subset _ _ hc))
        · push_neg at hbx
          by_cases hbe : b = body.length + 1
          · subst hbe
            show m' ((('<' :: body ++ ['>']) ++ out').get? (body.length + 1))
                ((('<' :: body ++ ['>']) ++ out').drop (body.length + 1 + 1)) = none
            have hgt : (('<' :: body ++ ['>']) ++ out').get? (body.length + 1)
                = some '>' := by
              rw [List.get?_append (by rw [hlen]; omega),
                show body.length + 1 = ('<' :: body).length + 0 from by simp,
                get_append_right]
              rfl
            have hdrop : (('<' :: body ++ ['>']) ++ out').drop (body.length + 1 + 1)
                = out' := by
              rw [show body.length + 1 + 1 = ('<' :: body ++ ['>']).length + 0
                  from by rw [hlen], drop_append_right, List.drop_zero]
            rw [hgt, hdrop]
            by_cases hpw : isWordOpt ((c :: rest).get? n) = true
            · rcases blocks_head hchild with h0 | ⟨r, h1⟩ | ⟨c2, s2', r2, hs2, hout'⟩
              · rw [h0]
                exact hm'.nil _
              · rw [h1]
                exact hm'.at_angle _ _
              · have heb := hm.end_bdry _ _ _ hmm
                rw [show n + 1 - 1 = n by omega] at heb
                have hg2 : (c :: rest).get? (n + 1) = some c2 := by
                  rw [List.get?_cons_succ, show n = n + 0 from by omega,
                    ← List.get?_drop, hs2, List.get?_cons_zero]
                have hw2 : isWordOpt (some c2) = false := by
                  have hx := bdry_word_right heb hpw
                  rwa [hg2] at hx
                rw [hout']
                cases hmx : m' (some '>') (c2 :: r2) with
                | none => rfl
                | some k =>
                    exfalso
                    have hsb := hm'.start_bdry _ _ _ hmx
                    rw [List.get?_cons_zero] at hsb
                    unfold bdry at hsb
                    rw [hw2, show isWordOpt (some '>') = false from by decide] at hsb
                    exact absurd hsb (by decide)
            · have hpw' : isWordOpt (some '>') = isWordOpt ((c :: rest).get? n) := by
                rw [show isWordOpt (some '>') = false from by decide]
                cases hx : isWordOpt ((c :: rest).get? n)
                · rfl
                · exact absurd hx hpw
              rw [hm'.prev_word _ _ _ hpw']
              exact ihc 0
          · have hb2 : body.length + 2 ≤ b := by omega
            obtain ⟨q, rfl⟩ : ∃ q, b = body.length + 2 + q :=
              ⟨b - (body.length + 2), by omega⟩
            show m' ((('<' :: body ++ ['>']) ++ out').get? (body.length + 2 + q))
                ((('<' :: body ++ ['>']) ++ out').drop (body.length + 2 + q + 1)) = none
            have hgt : (('<' :: body ++ ['>']) ++ out').get? (body.length + 2 + q)
                = out'.get? q := by
              rw [show body.length + 2 + q = ('<' :: body ++ ['>']).length + q
                  from by rw [hlen], get_append_right]
            have hdrop : (('<' :: body ++ ['>']) ++ out').drop (body.length + 2 + q + 1)
                = out'.drop (q + 1) := by
              rw [show body.length + 2 + q + 1 = ('<' :: body ++ ['>']).length + (q + 1)
                  from by rw [hlen]; omega, drop_append_right]
            rw [hgt, hdrop]
            exact ihc (q + 1)
  | tested prev c rest out' hmz hm'z hchild ihc =>
      intro a
      cases a with
      | succ a' =>
          show m' ((c :: out').get? a') ((c :: out').drop (a' + 1)) = none
          cases a' with
          | zero =>
              rw [List.get?_cons_zero]
              exact ihc 0
          | succ a'' =>
              rw [List.get?_cons_succ]
              exact ihc (a'' + 1)
      | zero =>
          show m' prev (c :: out') = none
          cases hmx : m' prev (c :: out') with
          | none => rfl
          | some k =>
              exfalso
              have hk1 : 1 ≤ k := hm'.one_le _ _ _ hmx
              have hBt : BlocksC m' m ('<' :: body ++ ['>']) prev (c :: rest) (c :: out') :=
                BlocksC.tested _ _ _ _ hmz hm'z hchild
              rcases blocks_agree hm hBt with heq | ⟨a, hagr, hang, hbd⟩
              · rw [heq] at hmx
                rw [hm'z] at hmx
                cases hmx
              · by_cases hka : k < a
                · refine (hm'.transfer prev (c :: out') (c :: rest) k hmx ?_ ?_) hm'z
                  · intro i hi
                    exact hagr i (by omega)
                  · rw [hagr k (by omega)]
                · by_cases hke : k = a
                  · subst hke
                    by_cases hsw : isWordOpt ((c :: rest).get? k) = true
                    · have hpn : isWordOpt (prevAt prev (c :: rest) k) = false :=
                        bdry_word_left hbd hsw
                      have heb := hm'.end_bdry _ _ _ hmx
                      rw [hang] at heb
                      obtain ⟨k', rfl⟩ := Nat.exists_eq_succ_of_ne_zero
                        (by omega : k ≠ 0)
                      rw [show k' + 1 - 1 = k' by omega] at heb
                      rw [hagr k' (by omega)] at heb
                      have hpn' : isWordOpt ((c :: rest).get? k') = false := hpn
                      unfold bdry at heb
                      rw [hpn', show isWordOpt (some '<') = false from by decide] at heb
                      exact absurd heb (by decide)
                    · refine (hm'.transfer prev (c :: out') (c :: rest) k hmx ?_ ?_) hm'z
                      · intro i hi
                        exact hagr i (by omega)
                      · rw [hang, show isWordOpt (some '<') = false from by decide]
                        cases hx : isWordOpt ((c :: rest).get? k)
                        · rfl
                        · exact absurd hx hsw
                  · exact (hm'.no_angle prev _ k hmx a (by omega)).1 hang

theorem subScan_clean_self {m : Matcher} (hm : MOK m) {body : List Char}
    (hbody : ∀ c ∈ body, c.isUpper = true ∨ c = '_') (prev : Option Char) (s : List Char) :
    CleanFrom m prev ((subScan m ('<' :: body ++ ['>']) prev s).1) :=
  blocks_clean hm hm hbody (subScan_blocks_self hm _ s.length s prev (le_refl _))

theorem subScan_clean_pres {m m' : Matcher} (hm : MOK m) (hm' : MOK m') {body : List Char}
    (hbody : ∀ c ∈ body, c.isUpper = true ∨ c = '_') {prev : Option Char} {s : List Char}
    (hc : CleanFrom m' prev s) :
    CleanFrom m' prev ((subScan m ('<' :: body ++ ['>']) prev s).1) :=
  blocks_clean hm' hm hbody (subScan_blocks_pres hm _ s.length s prev (le_refl _) hc)

theorem redactStep_text {m : Matcher} (name : String)
    (acc : List Char × List String × ℕ) :
    (redactStep m name acc).1 = (subScan m (placeholderFor name) none acc.1).1 := by
  simp only [redactStep]
  split
  · next h0 =>
      exact (scanZero (placeholderFor name) acc.1.length acc.1 none (le_refl _) h0).symm
  · rfl

theorem redactStep_clean {m : Matcher} {name : String}
    {acc : List Char × List String × ℕ} (hc : CleanFrom m none acc.1) :
    redactStep m name acc = acc := by
  simp only [redactStep]
  rw [scan_of_clean (placeholderFor name) acc.1.length acc.1 none (le_refl _) hc]
  rfl

theorem _redact_regex_clean {L : List Char}
    (h1 : CleanFrom emailAt none L) (h2 : CleanFrom phoneAt none L)
    (h3 : CleanFrom ccAt none L) (h4 : CleanFrom ssnAt none L)
    (h5 : CleanFrom ipAt none L) :
    _redact_regex (String.mk L) = ⟨String.mk L, [], 0⟩ := by
  simp only [_redact_regex]
  rw [show (String.mk L).toList = L from rfl]
  rw [@redactStep_clean emailAt "EMAIL_ADDRESS" (L, [], 0) h1,
    @redactStep_clean phoneAt "PHONE_NUMBER" (L, [], 0) h2,
    @redactStep_clean ccAt "CREDIT_CARD" (L, [], 0) h3,
    @redactStep_clean ssnAt "US_SSN" (L, [], 0) h4,
    @redactStep_clean ipAt "IP_ADDRESS" (L, [], 0) h5]

theorem _redact_regex_out_clean (t : String) :
    ∃ L : List Char, (_redact_regex t).redacted_text = String.mk L ∧
      CleanFrom emailAt none L ∧ CleanFrom phoneAt none L ∧ CleanFrom ccAt none L ∧
      CleanFrom ssnAt none L ∧ CleanFrom ipAt none L := by
  have hbE : ∀ c ∈ ("EMAIL_ADDRESS".toList), c.isUpper = true ∨ c = '_' := by decide
  have hbP : ∀ c ∈ ("PHONE_NUMBER".toList), c.isUpper = true ∨ c = '_' := by decide
  have hbC : ∀ c ∈ ("CREDIT_CARD".toList), c.isUpper = true ∨ c = '_' := by decide
  have hbS : ∀ c ∈ ("US_SSN".toList), c.isUpper = true ∨ c = '_' := by decide
  have hbI : ∀ c ∈ ("IP_ADDRESS".toList), c.isUpper = true ∨ c = '_' := by decide
  refine ⟨(subScan ipAt (placeholderFor "IP_ADDRESS") none
      ((subScan ssnAt (placeholderFor "US_SSN") none
        ((subScan ccAt (placeholderFor "CREDIT_CARD") none
          ((subScan phoneAt (placeholderFor "PHONE_NUMBER") none
            ((subScan emailAt (placeholderFor "EMAIL_ADDRESS") none t.toList).1)).1)).1)).1)).1,
    ?_, ?_, ?_, ?_, ?_, ?_⟩
  · have htext : (_redact_regex t).redacted_text
        = String.mk ((redactStep ipAt "IP_ADDRESS" (redactStep ssnAt "US_SSN"
          (redactStep ccAt "CREDIT_CARD" (redactStep phoneAt "PHONE_NUMBER"
            (redactStep emailAt "EMAIL_ADDRESS" (t.toList, [], 0)))))).1) := rfl
    rw [htext, redactStep_text, redactStep_text, redactStep_text, redactStep_text,
      redactStep_text]
  · exact subScan_clean_pres ipAt_MOK emailAt_MOK hbI
      (subScan_clean_pres ssnAt_MOK emailAt_MOK hbS
        (subScan_clean_pres ccAt_MOK emailAt_MOK hbC
          (subScan_clean_pres phoneAt_MOK emailAt_MOK hbP
            (subScan_clean_self emailAt_MOK hbE none t.toList))))
  · exact subScan_clean_pres ipAt_MOK phoneAt_MOK hbI
      (subScan_clean_pres ssnAt_MOK phoneAt_MOK hbS
        (subScan_clean_pres ccAt_MOK phoneAt_MOK hbC
          (subScan_clean_self phoneAt_MOK hbP none
            ((subScan emailAt (placeholderFor "EMAIL_ADDRESS") none t.toList).1))))
  · exact subScan_clean_pres ipAt_MOK ccAt_MOK hbI
      (subScan_clean_pres ssnAt_MOK ccAt_MOK hbS
        (subScan_clean_self ccAt_MOK hbC none
          ((subScan phoneAt (placeholderFor "PHONE_NUMBER") none
            ((subScan emailAt (placeholderFor "EMAIL_ADDRESS") none t.toList).1)).1)))
  · exact subScan_clean_pres ipAt_MOK ssnAt_MOK hbI
      (subScan_clean_self ssnAt_MOK hbS none
        ((subScan ccAt (placeholderFor "CREDIT_CARD") none
          ((subScan phoneAt (placeholderFor "PHONE_NUMBER") none
            ((subScan emailAt (placeholderFor "EMAIL_ADDRESS") none t.toList).1)).1)).1))
  · exact subScan_clean_self ipAt_MOK hbI none
      ((subScan ssnAt (placeholderFor "US_SSN") none
        ((subScan ccAt (placeholderFor "CREDIT_CARD") none
          ((subScan phoneAt (placeholderFor "PHONE_NUMBER") none
            ((subScan emailAt (placeholderFor "EMAIL_ADDRESS") none t.toList).1)).1)).1)).1)

/-- **C1.**  Redacting the output of `redact` is a no-op: for every input
string, running the regex-fallback redaction on an already-redacted text
reports an empty entity set and a replacement count of zero (and leaves
the text unchanged), because the inserted `<ENTITY_KIND>` placeholders
match no detector pattern. -/
theorem c1_redact_fixpoint (t : String) :
    (redact true (redact true t).redacted_text).entities_found = [] ∧
    (redact true (redact true t).redacted_text).redaction_count = 0 ∧
    (redact true (redact true t).redacted_text).redacted_text
      = (redact true t).redacted_text := by
  obtain ⟨L, htext, h1, h2, h3, h4, h5⟩ := _redact_regex_out_clean t
  have hr : redact true t = _redact_regex t := rfl
  rw [hr, htext]
  have hr2 : redact true (String.mk L) = _redact_regex (String.mk L) := rfl
  rw [hr2, _redact_regex_clean h1 h2 h3 h4 h5]
  exact ⟨rfl, rfl, rfl⟩

end EAIGtwy
